import Mathlib

/-! # ftree rendering core: `internal/ui/render.go` and `internal/ui/git/git.go`

A shallow embedding of the scroll window (`cropTree`), the tree lineariser
(`renderTreeFull`), the size formatter (`formatSize`), the status parser
(`GetGitStatus`), the status refresh gate of `Render`, the content preview
(`renderSelectedFileContent`), the header (`renderHeading`) and the status
badges of `renderTree`.

Conventions of the embedding:
* Go's `int` is `Int`; terminal sizes and slice lengths are far from `2^63`.
* A Go slice expression that would panic is `none`.
* Pointers are `Option Nat` (`none` is `nil`), compared by address.
* Text that is rendered (names, indents, rows) is a `String`, a sequence of
  code points, so `utf8.RuneCountInString` is `String.length`; names are taken
  to be valid UTF-8. The output of `git status`, the bytes read for the
  preview and the rows that receive a status badge are sequences of bytes.
* A float64 is given by its exact rational value: the conversion `float64(n)`
  rounds to a 53-bit significand (`toFloat64`), dividing by 1024 is exact, and
  `fmt.Sprintf("%.2f")` rounds the exact value, ties to even.
* The clock is an input: each `Render` call is given the duration that
  `time.Since(time.Now())` measures.
-/

set_option autoImplicit false

namespace Ftree

/-! ## Go built-ins used by the source -/

/-- Go slice expression `xs[lo:hi]`; `none` when the bounds check fails
(`0 <= lo <= hi <= len`, the capacity being taken equal to the length). -/
def goSlice {α : Type} (xs : List α) (lo hi : Int) : Option (List α) :=
  if 0 ≤ lo ∧ lo ≤ hi ∧ hi ≤ (xs.length : Int) then
    some ((xs.drop lo.toNat).take (hi - lo).toNat)
  else
    none

/-! ## `cropTree` (render.go 233-248) -/

/-- The part of `Renderer` that `cropTree` reads and writes. -/
structure Scroll where
  EdgePadding : Int
  offsetMem : Int
deriving Repr, DecidableEq

/-- Offset after the two consecutive `if` statements of `cropTree`. -/
def cropOffset (linesLen currentLine height edgePadding offsetMem : Int) : Int :=
  let offset := offsetMem
  let offset :=
    if currentLine + 1 > height + offset - edgePadding then
      max (min (currentLine + 1 - height + edgePadding) (linesLen - height)) 0
    else offset
  let offset :=
    if currentLine < edgePadding + offset then
      max (currentLine - edgePadding) 0
    else offset
  offset

/-- The value of `limit` at the slice expression of `cropTree`. -/
def cropLimit (linesLen height offset : Int) : Int :=
  min (height + offset) linesLen

/-- Model of `(r *Renderer) cropTree(lines, currentLine, height)`: the returned
window together with the renderer after the assignment to `offsetMem`. -/
def cropTree (r : Scroll) (lines : List String) (currentLine height : Int) :
    Option (List String × Scroll) :=
  let linesLen : Int := lines.length
  let offset := cropOffset linesLen currentLine height r.EdgePadding r.offsetMem
  let r1 : Scroll := { r with offsetMem := offset }
  let limit := cropLimit linesLen height offset
  match goSlice lines offset limit with
  | some w => some (w, r1)
  | none => none

/-! ## `renderTreeFull` (render.go 250-328) -/

def arrow : String := " <-"
def indentParent : String := "│  "
def indentCurrent : String := "├─ "
def indentCurrentLast : String := "└─ "
def indentEmpty : String := "   "
def emptydirContentName : String := "..."

/-- Pointer to a tree node: `none` is `nil`, `some a` is the address `a`. -/
abbrev Ptr := Option Nat

/-- The part of `fs.FileInfo` that the renderer reads: `Name()`, `IsDir()` and
whether `Mode()` has `os.ModeSymlink` set. -/
structure FileInfo where
  Name : String
  IsDir : Bool
  IsSymlink : Bool
deriving Repr, DecidableEq

/-- A `*tree.Node`: `null` is the nil pointer; `Children` is `none` for a nil
slice and `some cs` for a non-nil one (possibly empty). -/
inductive Node where
  | null : Node
  | mk (addr : Nat) (Info : FileInfo) (Children : Option (List Node)) : Node

/-- Address of a node pointer. -/
def Node.ptr : Node → Ptr
  | .null => none
  | .mk addr _ _ => some addr

/-- Modelled from the spec: the style sheet type is declared outside the two
source files; each named style is an opaque string-decorating function
(`Style.Render`). Only the styles used by `renderTreeFull` are listed. -/
structure Stylesheet where
  TreeIndent : String → String
  TreeDirectoryName : String → String
  TreeLinkName : String → String
  TreeRegularFileName : String → String
  TreeMarkedNode : String → String
  TreeSelectionArrow : String → String

/-- The style sheet that leaves every fragment unstyled. -/
def Stylesheet.plain : Stylesheet := ⟨id, id, id, id, id, id⟩

/-- Modelled from the spec: the tree snapshot of the tree provider (package
`tree`, not among the source files): root node, current-directory pointer,
marked pointer, and the pointer returned by `GetSelectedChild()` (the
highlighted entry within the current directory's children, or nil). -/
structure Tree where
  Root : Node
  CurrentDir : Ptr
  Marked : Ptr
  selectedChild : Ptr

/-- The local type `stackEl` of `renderTreeFull`. -/
structure StackEl where
  node : Node
  indent : String
  isLast : Bool

/-- Lines 285-291: the displayed name before styling; `none` if the slice
expression `[]rune(name)[:max(0, width-indentRuneCount-6)]` panics. -/
def truncateName (name : String) (indentRuneCount width : Int) : Option String :=
  let nameRuneCountNoStyle : Int := name.length
  if nameRuneCountNoStyle + indentRuneCount > width - 6 then
    match goSlice name.data 0 (max 0 (width - indentRuneCount - 6)) with
    | some rs => some (String.mk rs ++ "...")
    | none => none
  else
    some name

/-- Lines 321-324: `for i := len(children)-1; i >= 0; i--` pushing
`stackEl{children[i], parentIndent, i == len(children)-1}`; the counter of the
model is `i + 1`. The stack of package `stack` is a list with its top first. -/
def pushChildren (children : List Node) (parentIndent : String) :
    Nat → List StackEl → List StackEl
  | 0, s => s
  | i + 1, s =>
    match children[i]? with
    | some ch =>
      pushChildren children parentIndent i
        (⟨ch, parentIndent, decide ((i : Int) = (children.length : Int) - 1)⟩ :: s)
    | none => s

/-- Local variables of `renderTreeFull` that live across loop iterations. -/
structure LoopState where
  s : List StackEl
  lines : List String
  linen : Int
  currentLine : Int

/-- One iteration of the loop of `renderTreeFull` (lines 263-325), `el` being
the popped element and `st.s` the stack after the pop; `none` is a panic. -/
def loopBody (sty : Stylesheet) (tree : Tree) (width : Int)
    (el : StackEl) (st : LoopState) : Option LoopState :=
  let linen := st.linen + 1
  let node := el.node
  let isLast := el.isLast
  let parentIndent := el.indent
  let ip : String × String :=
    if node.ptr = tree.Root.ptr then ("", parentIndent)
    else if isLast then (parentIndent ++ indentCurrentLast, parentIndent ++ indentEmpty)
    else (parentIndent ++ indentCurrent, parentIndent ++ indentParent)
  let indent := ip.1
  let parentIndent := ip.2
  match node with
  | .null => some { st with linen := linen }
  | .mk addr info children =>
    let indentRuneCount : Int := indent.length
    match truncateName info.Name indentRuneCount width with
    | none => none
    | some name =>
      let indent := sty.TreeIndent indent
      let name :=
        if info.IsDir then sty.TreeDirectoryName name
        else if info.IsSymlink then sty.TreeLinkName name
        else sty.TreeRegularFileName name
      let name := if tree.Marked = some addr then sty.TreeMarkedNode name else name
      let repr := indent ++ name
      let selected : Bool := decide (tree.selectedChild = some addr)
      let repr := if selected then repr ++ sty.TreeSelectionArrow arrow else repr
      let currentLine := if selected then linen else st.currentLine
      let lines := st.lines ++ [repr]
      match children with
      | none => some { st with lines := lines, linen := linen, currentLine := currentLine }
      | some cs =>
        let empty : Bool := decide (cs.length = 0 ∧ tree.CurrentDir = some addr)
        let emptyIndent := sty.TreeIndent (parentIndent ++ indentCurrentLast)
        let lines :=
          if empty then
            lines ++ [emptyIndent ++ emptydirContentName ++ sty.TreeSelectionArrow arrow]
          else lines
        let currentLine := if empty then linen + 1 else currentLine
        some { s := pushChildren cs parentIndent cs.length st.s,
               lines := lines, linen := linen, currentLine := currentLine }

/-- The loop `for s.Len() > 0` of `renderTreeFull`, run for at most `fuel`
iterations; `none` when the fuel runs out or an iteration panics. -/
def renderLoop (sty : Stylesheet) (tree : Tree) (width : Int) :
    Nat → LoopState → Option (List String × Int)
  | fuel, st =>
    match st.s with
    | [] => some (st.lines, st.currentLine)
    | el :: rest =>
      match fuel with
      | 0 => none
      | fuel + 1 =>
        match loopBody sty tree width el { st with s := rest } with
        | some st1 => renderLoop sty tree width fuel st1
        | none => none

/-- Model of `(r *Renderer) renderTreeFull(tree, width)`: the rows and the
returned `currentLine`. -/
def renderTreeFull (sty : Stylesheet) (tree : Tree) (width : Int) (fuel : Nat) :
    Option (List String × Int) :=
  renderLoop sty tree width fuel
    { s := [⟨tree.Root, "", false⟩], lines := [], linen := -1, currentLine := 0 }

/-! ### Reference listing of the specification -/

mutual
/-- Pre-order list of the nodes below and including a node. -/
def Node.nodes : Node → List Node
  | .null => [.null]
  | .mk a i none => [.mk a i none]
  | .mk a i (some cs) => .mk a i (some cs) :: Node.nodesList cs
/-- Pre-order list of the nodes of a list of siblings. -/
def Node.nodesList : List Node → List Node
  | [] => []
  | c :: cs => c.nodes ++ Node.nodesList cs
end

/-- Number of nodes reachable from a node. -/
def Node.size (n : Node) : Nat := n.nodes.length

/-- No nil pointer occurs in the tree. -/
def Node.noNil (n : Node) : Bool := n.nodes.all fun m => m.ptr.isSome

/-- Addresses of the nodes in pre-order. -/
def Node.addrs (n : Node) : List Nat := n.nodes.filterMap Node.ptr

/-- The children list of a node, `[]` for a nil slice. -/
def Node.childList : Node → List Node
  | .mk _ _ (some cs) => cs
  | _ => []

/-- The node is a directory entry whose `Children` is non-nil and empty. -/
def Node.emptyChildren : Node → Bool
  | .mk _ _ (some []) => true
  | _ => false

/-- The current directory is reached by the traversal and has an empty
(non-nil) `Children` list. -/
def Tree.currentDirEmpty (tree : Tree) : Bool :=
  tree.Root.nodes.any fun m => decide (m.ptr = tree.CurrentDir) && m.emptyChildren

/-- The selected child is one of the current directory's children. -/
def Tree.selectedInCurrentDir (tree : Tree) : Bool :=
  tree.Root.nodes.any fun m =>
    decide (m.ptr = tree.CurrentDir) &&
      m.childList.any fun c => decide (c.ptr = tree.selectedChild)

/-- Which node a row of the listing stands for. -/
inductive RowTag where
  | node (addr : Nat) : RowTag
  | emptyDir : RowTag
deriving Repr, DecidableEq

/-- Truncation as the specification words it: clip to
`paneWidth - indentWidth - 6` code points and append the marker. -/
def clipName (name : String) (indentWidth width : Int) : String :=
  if (name.length : Int) + indentWidth > width - 6 then
    String.mk (name.data.take (width - indentWidth - 6).toNat) ++ "..."
  else name

/-- Text of the row of a node: styled indent, styled name, optional arrow. -/
def rowText (sty : Stylesheet) (tree : Tree) (width : Int) (indent : String)
    (addr : Nat) (info : FileInfo) : String :=
  let name := clipName info.Name indent.length width
  let name :=
    if info.IsDir then sty.TreeDirectoryName name
    else if info.IsSymlink then sty.TreeLinkName name
    else sty.TreeRegularFileName name
  let name := if tree.Marked = some addr then sty.TreeMarkedNode name else name
  if tree.selectedChild = some addr then
    sty.TreeIndent indent ++ name ++ sty.TreeSelectionArrow arrow
  else sty.TreeIndent indent ++ name

/-- Text of the placeholder row of an empty current directory. -/
def placeholderRow (sty : Stylesheet) (childIndent : String) : String :=
  sty.TreeIndent (childIndent ++ indentCurrentLast) ++ emptydirContentName
    ++ sty.TreeSelectionArrow arrow

/-- The placeholder row, present when the node is the current directory and
its children list is empty. -/
def placeholderRows (sty : Stylesheet) (tree : Tree) (addr : Nat) (cs : List Node)
    (childIndent : String) : List (RowTag × String) :=
  if cs.length = 0 ∧ tree.CurrentDir = some addr then
    [(RowTag.emptyDir, placeholderRow sty childIndent)]
  else []

mutual
/-- Recursive pre-order listing of a node: its row, the placeholder if any,
then the listings of its children in sibling order. The node whose address is
`rootAddr` gets the empty indent and hands its parent indent on unchanged. -/
def listNode (sty : Stylesheet) (tree : Tree) (width : Int) (rootAddr : Ptr) :
    Node → String → Bool → List (RowTag × String)
  | .null, _, _ => []
  | .mk addr info none, parentIndent, isLast =>
    [(RowTag.node addr, rowText sty tree width
      (if some addr = rootAddr then ""
       else parentIndent ++ (if isLast then indentCurrentLast else indentCurrent))
      addr info)]
  | .mk addr info (some cs), parentIndent, isLast =>
    (RowTag.node addr, rowText sty tree width
      (if some addr = rootAddr then ""
       else parentIndent ++ (if isLast then indentCurrentLast else indentCurrent))
      addr info) ::
    (placeholderRows sty tree addr cs
      (if some addr = rootAddr then parentIndent
       else parentIndent ++ (if isLast then indentEmpty else indentParent)) ++
     listChildren sty tree width rootAddr cs
      (if some addr = rootAddr then parentIndent
       else parentIndent ++ (if isLast then indentEmpty else indentParent)))
/-- Listings of the siblings, in their original order; the last one is
flagged as last. -/
def listChildren (sty : Stylesheet) (tree : Tree) (width : Int) (rootAddr : Ptr) :
    List Node → String → List (RowTag × String)
  | [], _ => []
  | c :: cs, parentIndent =>
    listNode sty tree width rootAddr c parentIndent cs.isEmpty ++
      listChildren sty tree width rootAddr cs parentIndent
end

/-- The reference listing of the specification: the root first, with empty
indent, then each node followed by the listings of its children. -/
def preorderRows (sty : Stylesheet) (tree : Tree) (width : Int) :
    List (RowTag × String) :=
  match tree.Root with
  | .null => []
  | .mk addr info none => [(RowTag.node addr, rowText sty tree width "" addr info)]
  | .mk addr info (some cs) =>
    (RowTag.node addr, rowText sty tree width "" addr info) ::
      (placeholderRows sty tree addr cs "" ++ listChildren sty tree width none cs "")

/-- Effect of one row of the listing on `(linen, currentLine)`. -/
def trackStep (selected : Ptr) (s : Int × Int) : RowTag → Int × Int
  | .node a => (s.1 + 1, if selected = some a then s.1 + 1 else s.2)
  | .emptyDir => (s.1, s.1 + 1)

/-- Rows contributed by the elements of a stack, top first. -/
def stackRows (sty : Stylesheet) (tree : Tree) (width : Int) :
    List StackEl → List (RowTag × String)
  | [] => []
  | el :: rest =>
    listNode sty tree width tree.Root.ptr el.node el.indent el.isLast ++
      stackRows sty tree width rest

/-- Siblings as stack elements, the first sibling on top. -/
def siblingEls (parentIndent : String) : List Node → List StackEl
  | [] => []
  | c :: cs => ⟨c, parentIndent, cs.isEmpty⟩ :: siblingEls parentIndent cs

/-- Tags of the rows that one node contributes by itself: its own row and,
for the empty current directory, the placeholder. -/
def tagsOf (tree : Tree) : Node → List RowTag
  | .null => []
  | .mk a _ none => [RowTag.node a]
  | .mk a _ (some cs) =>
    if cs.length = 0 ∧ tree.CurrentDir = some a then [RowTag.node a, RowTag.emptyDir]
    else [RowTag.node a]

/-- The node is the current directory and its `Children` is non-nil and empty. -/
def isEmptyCurrent (tree : Tree) (m : Node) : Bool :=
  decide (m.ptr = tree.CurrentDir) && m.emptyChildren

/-- Root with a file `a.txt` and an empty directory `b`; `a.txt` is selected. -/
def exampleTree : Tree :=
  { Root := .mk 0 ⟨"root", true, false⟩
      (some [.mk 1 ⟨"a.txt", false, false⟩ none, .mk 2 ⟨"b", true, false⟩ (some [])]),
    CurrentDir := some 0, Marked := none, selectedChild := some 1 }

/-- Go's `strings.HasSuffix`, on code points. -/
def hasSuffix (s suffix : String) : Bool := suffix.data.isSuffixOf s.data

/-- Name of a node, empty for the nil pointer. -/
def Node.name : Node → String
  | .null => ""
  | .mk _ i _ => i.Name

/-- No node of the tree has a name that ends in `<-`. -/
def Tree.namesClear (tree : Tree) : Bool :=
  tree.Root.nodes.all fun m => !(hasSuffix m.name "<-")

/-- Root with a file named `<-` and a file `a.txt`; `a.txt` is selected. -/
def arrowNameTree : Tree :=
  { Root := .mk 0 ⟨"root", true, false⟩
      (some [.mk 1 ⟨"<-", false, false⟩ none, .mk 2 ⟨"a.txt", false, false⟩ none]),
    CurrentDir := some 0, Marked := none, selectedChild := some 2 }

/-- An indent computed by the loop is empty or ends in one of the two branch
glyphs. -/
def indentShape (ind : String) : Prop :=
  ind = "" ∨ ∃ p : String, ind = p ++ indentCurrentLast ∨ ind = p ++ indentCurrent

/-- Number of loop iterations the elements of a stack stand for. -/
def stackSize : List StackEl → Nat
  | [] => 0
  | el :: rest => el.node.size + stackSize rest

/-! ## `formatSize` (render.go 330-344) -/

/-- The array `sizes`. -/
def sizes : List String := ["B", "KiB", "MiB", "GiB", "TiB", "PiB", "EiB"]

/-- Nearest integer of a rational, ties to even. -/
def roundHalfEven (q : ℚ) : Int :=
  let f := Rat.floor q
  let d := q - f
  if d < 1 / 2 then f
  else if d > 1 / 2 then f + 1
  else if f % 2 = 0 then f else f + 1

/-- Decimal digits of a natural number, most significant first; `fuel` bounds
the number of digits. -/
def digitsAux : Nat → Nat → List Char → List Char
  | 0, _, acc => acc
  | fuel + 1, n, acc =>
    let acc1 := Char.ofNat (48 + n % 10) :: acc
    if n / 10 = 0 then acc1 else digitsAux fuel (n / 10) acc1

/-- Decimal numeral of a natural number. -/
def decimal (n : Nat) : String := String.mk (digitsAux (n + 1) n [])

/-- Left padding with zeros to a given width. -/
def padLeft (width : Nat) (s : String) : String :=
  String.mk (List.replicate (width - s.length) (Char.ofNat 48)) ++ s

/-- Go's `fmt.Sprintf("%.<prec>f", s)` for a finite non-negative `s`: the
exact value rounded to `prec` decimals, ties to even. -/
def sprintfFixed (prec : Nat) (s : ℚ) : String :=
  let scaled := (roundHalfEven (s * 10 ^ prec)).toNat
  if prec = 0 then decimal scaled
  else decimal (scaled / 10 ^ prec) ++ "." ++ padLeft prec (decimal (scaled % 10 ^ prec))

/-- The loop `for s >= base && i < unitsLimit-1 { s = s / base; i++ }`; the
first argument is `unitsLimit - 1 - i`, the room the guard leaves. The value
`s` is a float64 holding a non-negative integer or such an integer divided by
a power of 1024, and dividing a float64 by 1024 is exact, so `s` is kept as an
exact rational. -/
def formatSizeLoop (base : ℚ) : Nat → ℚ → Nat → ℚ × Nat
  | 0, s, i => (s, i)
  | k + 1, s, i =>
    if s ≥ base then formatSizeLoop base k (s / base) (i + 1) else (s, i)

/-- Model of `formatSize(s, base)`, the argument `s` being the exact value of
the float64 passed in (see `toFloat64` for the conversion at the call site);
`none` if `sizes[i]` is out of range. -/
def formatSize (s base : ℚ) : Option String :=
  let unitsLimit := sizes.length
  let r := formatSizeLoop base (unitsLimit - 1) s 0
  let prec := if r.2 > 1 then 2 else 0
  match sizes[r.2]? with
  | some u => some (sprintfFixed prec r.1 ++ " " ++ u)
  | none => none

/-- Go's conversion `float64(n)` of a non-negative `int64` (render.go 105,
`float64(selected.Info.Size())`): the nearest number with a 53-bit
significand, ties to the even significand; exact below `2^53`. The result is
given by its exact value. -/
def toFloat64 (n : Nat) : ℚ :=
  if n < 2 ^ 53 then (n : ℚ)
  else
    let e := Nat.log2 n - 52
    let q := n / 2 ^ e
    let r := n % 2 ^ e
    let half := 2 ^ (e - 1)
    let q1 := if r > half ∨ (r = half ∧ q % 2 = 1) then q + 1 else q
    ((q1 * 2 ^ e : Nat) : ℚ)

/-- The natural number `r` is a nearest integer of `x`, the even one at a tie. -/
def nearestEven (r : Nat) (x : ℚ) : Prop :=
  |(r : ℚ) - x| ≤ 1 / 2 ∧ (|(r : ℚ) - x| = 1 / 2 → r % 2 = 0)

/-! ## `GetGitStatus` (git/git.go) -/

/-- A Go string: a sequence of bytes. -/
abbrev GoString := List Nat

/-- The bytes of an ASCII string literal. -/
def ascii (s : String) : GoString := s.data.map Char.toNat

/-- The struct `GitStatus`. -/
structure GitStatus where
  Path : GoString
  Staged : Bool
  Modified : Bool
  Untracked : Bool
deriving Repr, DecidableEq

/-- A `map[string]GitStatus` as an association list; `none` (at its uses) is
the nil map. -/
abbrev StatusMap := List (GoString × GitStatus)

/-- Assignment `m[k] = v`. -/
def StatusMap.set (m : StatusMap) (k : GoString) (v : GitStatus) : StatusMap :=
  (k, v) :: m.filter fun e => !(decide (e.1 = k))

/-- Go's `strings.ContainsAny(s, chars)` for ASCII `chars`: some byte of `s`
is one of the bytes of `chars`. -/
def containsAny (s chars : GoString) : Bool := s.any fun b => chars.contains b

/-- Go's `strings.Contains(s, substr)`. -/
def contains (s substr : GoString) : Bool := s.tails.any fun t => substr.isPrefixOf t

/-- Go's `strings.HasPrefix(s, prefix)`. -/
def hasPrefix (s pre : GoString) : Bool := pre.isPrefixOf s

/-- Go's `strings.Split(s, "\x00")`. -/
def splitNul : GoString → List GoString
  | [] => [[]]
  | b :: bs =>
    if b = 0 then [] :: splitNul bs
    else
      match splitNul bs with
      | [] => [[b]]
      | piece :: pieces => (b :: piece) :: pieces

/-- Lines 34-39: the struct built for one entry; `none` if a slice expression
panics. -/
def mkStatus (line : GoString) : Option GitStatus :=
  match goSlice line 3 line.length, goSlice line 0 2 with
  | some path, some code =>
    some { Path := path,
           Staged := containsAny code (ascii "M A D R C U"),
           Modified := contains code (ascii "M"),
           Untracked := hasPrefix line (ascii "??") }
  | _, _ => none

/-- Lines 30-41: the loop over the entries. -/
def statusLoop : List GoString → StatusMap → Option StatusMap
  | [], m => some m
  | line :: rest, m =>
    if line.length < 3 then statusLoop rest m
    else
      match mkStatus line with
      | some status => statusLoop rest (m.set status.Path status)
      | none => none

/-- What `cmd.Output()` returns: the output, an `*exec.ExitError` with its
exit code, or another error. -/
inductive CmdResult where
  | output (out : GoString) : CmdResult
  | exitError (code : Int) (msg : String) : CmdResult
  | otherError (msg : String) : CmdResult

/-- Model of `GetGitStatus(dir)`, given what running `git status` yields: the
returned pair (map or nil, error or nil); the outer `none` is a panic. -/
def GetGitStatus (res : CmdResult) : Option (Option StatusMap × Option String) :=
  match res with
  | .exitError code msg => if code = 128 then some (none, none) else some (none, some msg)
  | .otherError msg => some (none, some msg)
  | .output out =>
    match statusLoop (splitNul out) [] with
    | some m => some (some m, none)
    | none => none

/-! ## The status refresh of `Render` (render.go 45-66) -/

def minHeight : Int := 10
def minWidth : Int := 10

/-- The struct `Renderer`, less the preview buffer. -/
structure Renderer extends Scroll where
  Style : Stylesheet
  gitStatus : Option StatusMap

/-- Model of `NewRenderer(style, edgePadding)`: `gitStatus` is a fresh empty,
non-nil map. -/
def NewRenderer (style : Stylesheet) (edgePadding : Int) : Renderer :=
  { Style := style, EdgePadding := edgePadding, offsetMem := 0, gitStatus := some [] }

/-- Go's `Duration.Minutes()` of a duration in nanoseconds. -/
def minutes (d : Int) : ℚ := (d : ℚ) / (60 * 10 ^ 9)

/-- What one call of `Render` meets: the window size, the time of the call
(nanoseconds), the duration `time.Since(time.Now())` measured between the two
consecutive clock reads of line 59, and what `git status` yields if run. -/
structure Frame where
  winHeight : Int
  winWidth : Int
  now : Int
  sinceNow : Int
  cmd : CmdResult

/-- State that `Render` carries over: the renderer and `s.ErrBuf`; `calls`
records the times at which `git.GetGitStatus` was invoked, latest first. -/
structure RenderState where
  r : Renderer
  ErrBuf : String
  calls : List Int

/-- Lines 54-66 of `Render`: the size check and the status refresh. -/
def renderStatusUpdate (st : RenderState) (f : Frame) : Option RenderState :=
  if f.winWidth < minWidth ∨ f.winHeight < minHeight then some st
  else if st.r.gitStatus = none ∨ minutes f.sinceNow > 1 then
    match GetGitStatus f.cmd with
    | none => none
    | some (_, some err) =>
      some { st with ErrBuf := "Git status error: " ++ err, calls := f.now :: st.calls }
    | some (newStatus, none) =>
      some { r := { st.r with gitStatus := newStatus }, ErrBuf := st.ErrBuf,
             calls := f.now :: st.calls }
  else some st

/-- A sequence of `Render` calls. -/
def renderFrames : RenderState → List Frame → Option RenderState
  | st, [] => some st
  | st, f :: fs =>
    match renderStatusUpdate st f with
    | some st1 => renderFrames st1 fs
    | none => none

/-! ## Scroll policy of the specification and scrolling runs -/

/-- The three-way scroll policy of the specification. -/
def policyOffset (linesLen currentLine height edgePadding offset : Int) : Int :=
  if currentLine + 1 > height + offset - edgePadding then
    max (min (currentLine + 1 - height + edgePadding) (linesLen - height)) 0
  else if currentLine < edgePadding + offset then
    max (currentLine - edgePadding) 0
  else offset

/-- Successive calls of `cropTree` on the same lines and height, one for each
`currentLine` of the list, each starting from the offset stored by the call
before; the result lists the stored offsets. -/
def cropRun (lines : List String) (height : Int) : List Int → Scroll → Option (List Int)
  | [], _ => some []
  | c :: cs, r =>
    match cropTree r lines c height with
    | some (_, r1) =>
      match cropRun lines height cs r1 with
      | some offs => some (r1.offsetMem :: offs)
      | none => none
    | none => none

/-! ### Indentation of the specification -/

/-- Glyph that a node contributes to the indent of its descendants: blank
under a last sibling, a vertical bar otherwise. -/
def continuationGlyph (isLast : Bool) : String :=
  if isLast then indentEmpty else indentParent

/-- Glyph in front of a node: the corner for a last sibling, the tee otherwise. -/
def branchGlyph (isLast : Bool) : String :=
  if isLast then indentCurrentLast else indentCurrent

/-- Concatenation of the continuation glyphs of the ancestors `a_1 .. a_k`
below the root, given for each whether it is the last child of its parent. -/
def ancestorIndent : List Bool → String
  | [] => ""
  | l :: ls => continuationGlyph l ++ ancestorIndent ls

/-- Indent of a node at depth `d >= 1`: the continuation glyphs of its
ancestors `a_1 .. a_(d-1)` followed by its own branch glyph. -/
def chainIndent (ancestors : List Bool) (isLast : Bool) : String :=
  ancestorIndent ancestors ++ branchGlyph isLast

mutual
/-- Listing of a node below the root whose rows carry the indent determined by
the chain of ancestors. -/
def chainNode (sty : Stylesheet) (tree : Tree) (width : Int) :
    Node → List Bool → Bool → List (RowTag × String)
  | .null, _, _ => []
  | .mk addr info none, ancestors, isLast =>
    [(RowTag.node addr, rowText sty tree width (chainIndent ancestors isLast) addr info)]
  | .mk addr info (some cs), ancestors, isLast =>
    (RowTag.node addr, rowText sty tree width (chainIndent ancestors isLast) addr info) ::
    (placeholderRows sty tree addr cs (ancestorIndent (ancestors ++ [isLast])) ++
     chainChildren sty tree width cs (ancestors ++ [isLast]))
/-- Listings of the children of a node with the given chain of ancestors. -/
def chainChildren (sty : Stylesheet) (tree : Tree) (width : Int) :
    List Node → List Bool → List (RowTag × String)
  | [], _ => []
  | c :: cs, ancestors =>
    chainNode sty tree width c ancestors cs.isEmpty ++
      chainChildren sty tree width cs ancestors
end

/-- The listing of the whole tree by ancestor chains: the root's row has the
empty indent, its children have the empty chain of ancestors. -/
def chainRows (sty : Stylesheet) (tree : Tree) (width : Int) : List (RowTag × String) :=
  match tree.Root with
  | .null => []
  | .mk addr info none => [(RowTag.node addr, rowText sty tree width "" addr info)]
  | .mk addr info (some cs) =>
    (RowTag.node addr, rowText sty tree width "" addr info) ::
      (placeholderRows sty tree addr cs "" ++ chainChildren sty tree width cs [])

/-- A tree that consists of its root, with nothing selected. -/
def rootOnlyTree : Tree :=
  { Root := .mk 0 ⟨"root", true, false⟩ none,
    CurrentDir := some 0, Marked := none, selectedChild := none }

/-! ## `renderSelectedFileContent` (render.go 215-231) -/

def previewBytesLimit : Int := 10000
def binaryContentPlaceholder : String := "<binary content>"

/-- A UTF-8 continuation byte. -/
def isCont (b : Nat) : Bool := decide (128 ≤ b ∧ b ≤ 191)

/-- Go's `utf8.Valid`: the bytes are a sequence of well-formed UTF-8 encodings
(no overlong forms, no surrogates, nothing above U+10FFFF). -/
def utf8Valid : GoString → Bool
  | [] => true
  | b0 :: rest =>
    if b0 < 128 then utf8Valid rest
    else
      match rest with
      | [] => false
      | b1 :: rest1 =>
        if 194 ≤ b0 ∧ b0 ≤ 223 then isCont b1 && utf8Valid rest1
        else
          match rest1 with
          | [] => false
          | b2 :: rest2 =>
            if b0 = 224 then decide (160 ≤ b1 ∧ b1 ≤ 191) && isCont b2 && utf8Valid rest2
            else if (225 ≤ b0 ∧ b0 ≤ 236) ∨ b0 = 238 ∨ b0 = 239 then
              isCont b1 && isCont b2 && utf8Valid rest2
            else if b0 = 237 then decide (128 ≤ b1 ∧ b1 ≤ 159) && isCont b2 && utf8Valid rest2
            else
              match rest2 with
              | [] => false
              | b3 :: rest3 =>
                if b0 = 240 then
                  decide (144 ≤ b1 ∧ b1 ≤ 191) && isCont b2 && isCont b3 && utf8Valid rest3
                else if 241 ≤ b0 ∧ b0 ≤ 243 then
                  isCont b1 && isCont b2 && isCont b3 && utf8Valid rest3
                else if b0 = 244 then
                  decide (128 ≤ b1 ∧ b1 ≤ 143) && isCont b2 && isCont b3 && utf8Valid rest3
                else false

/-- Go's `strings.Split(s, sep)` for a one-byte separator. -/
def splitByte (sep : Nat) : GoString → List GoString
  | [] => [[]]
  | b :: bs =>
    if b = sep then [] :: splitByte sep bs
    else
      match splitByte sep bs with
      | [] => [[b]]
      | piece :: pieces => (b :: piece) :: pieces

/-- Go's `strings.Join(lines, "\\n")`. -/
def joinNewline (lines : List GoString) : GoString := List.intercalate [10] lines

/-- The two uses of the style `ContentPreview`: `Render` and
`MaxWidth(w).Render`, as opaque functions on text. -/
structure PreviewStyle where
  ContentPreview : GoString → GoString
  ContentPreviewMaxWidth : Int → GoString → GoString

/-- Outcome of `tree.ReadSelectedChildContent(r.previewBuff[:], limit)`: the
buffer after the read with the number of bytes read, or an error. -/
inductive ReadResult where
  | ok (previewBuff : GoString) (n : Int) : ReadResult
  | err (msg : GoString) : ReadResult

/-- Modelled from the spec: `ReadSelectedChildContent` of the tree provider
(not among the source files) is a bounded read; on a readable file it copies
the first `min(len(file), limit)` bytes over the start of the buffer and
returns their number. -/
def ReadSelectedChildContent (file previewBuff : GoString) (limit : Int) : ReadResult :=
  .ok (file.take limit.toNat ++ previewBuff.drop (min file.length limit.toNat))
    (min (file.length : Int) limit)

/-- Model of `(r *Renderer) renderSelectedFileContent(tree, height, width)`,
given the outcome of the read; `none` is a panic of a slice expression. -/
def renderSelectedFileContent (sty : PreviewStyle) (read : ReadResult)
    (height width : Int) : Option GoString :=
  match read with
  | .err msg => some (sty.ContentPreview (ascii "Error: " ++ msg))
  | .ok previewBuff n =>
    match goSlice previewBuff 0 n with
    | none => none
    | some content =>
      if !utf8Valid content then
        some (sty.ContentPreviewMaxWidth (width - 1)
          (joinNewline [ascii binaryContentPlaceholder]))
      else
        let contentLines := splitByte 10 content
        match goSlice contentLines 0 (min (max height 0) contentLines.length) with
        | none => none
        | some shown => some (sty.ContentPreviewMaxWidth (width - 1) (joinNewline shown))

/-- The preview style that leaves the text as it is. -/
def PreviewStyle.plain : PreviewStyle := ⟨id, fun _ t => t⟩

/-! ## `renderHeading` (render.go 93-155) -/

def helpPreview : String := "Press ? to toggle help"

/-- UTF-8 encoding of one code point. -/
def encodeChar (c : Nat) : GoString :=
  if c < 128 then [c]
  else if c < 2048 then [192 + c / 64, 128 + c % 64]
  else if c < 65536 then [224 + c / 4096, 128 + c / 64 % 64, 128 + c % 64]
  else [240 + c / 262144, 128 + c / 4096 % 64, 128 + c / 64 % 64, 128 + c % 64]

/-- The bytes of a text. -/
def utf8Encode (s : String) : GoString := s.data.flatMap fun c => encodeChar c.toNat

/-- Lookup `m[k]` in a status map; `none` when the key is absent or the map
is nil. -/
def statusLookup (m : Option StatusMap) (k : GoString) : Option GitStatus :=
  match m with
  | none => none
  | some entries => entries.lookup k

/-- Modelled from the spec: what `renderHeading` reads of the selected node
(types of the tree provider): its path, `Info.ModTime().Format(time.RFC822)`,
`Info.Size()` (a length in bytes) and `Info.Mode().String()`. -/
structure SelectedInfo where
  Path : String
  ModTime : String
  Size : Nat
  Mode : String

/-- Modelled from the spec: what `renderHeading` reads of `*state.State`: the
selected child (or nil), the current directory's path, the marked node's path
(if a node is marked), `OpBuf.Repr()`, `OpBuf.IsInput()`, the input buffer and
the error buffer. -/
structure HeadingState where
  selected : Option SelectedInfo
  currentDirPath : String
  markedPath : Option String
  opRepr : String
  opIsInput : Bool
  InputBuf : String
  ErrBuf : String

/-- Modelled from the spec: the styles that `renderHeading` uses, each an
opaque string-decorating function. -/
structure HeaderStyle where
  SelectedPath : String → String
  HelpMsg : String → String
  FinfoPermissions : String → String
  FinfoSep : String → String
  FinfoLastUpdated : String → String
  FinfoSize : String → String
  OperationBar : String → String
  OperationBarInput : String → String
  ErrBar : String → String

/-- The header styles that leave every fragment unstyled. -/
def HeaderStyle.plain : HeaderStyle := ⟨id, id, id, id, id, id, id, id, id⟩

/-- Go's `strings.Repeat(" ", count)` for `count >= 0`. -/
def spaces (count : Int) : String := String.mk (List.replicate count.toNat (Char.ofNat 32))

/-- The value of `rawPath` (line 132): the path shown and the status badge. -/
def rawPath (gitStatus : Option StatusMap) (s : HeadingState) : String :=
  match s.selected with
  | none => "> " ++ (s.currentDirPath ++ "/...") ++ ""
  | some sel =>
    let badge :=
      match statusLookup gitStatus (utf8Encode sel.Path) with
      | some status =>
        if status.Staged then " [Staged]"
        else if status.Modified then " [Modified]"
        else if status.Untracked then " [Untracked]"
        else ""
      | none => ""
    "> " ++ sel.Path ++ badge

/-- Model of `(r *Renderer) renderHeading(s, width)`: the slice `header` whose
elements are joined with newlines, and its length; `none` if `formatSize`
panics. -/
def renderHeading (sty : HeaderStyle) (gitStatus : Option StatusMap) (s : HeadingState)
    (width : Int) : Option (List String × Int) :=
  let changeTime := match s.selected with
    | none => "--"
    | some sel => sel.ModTime
  let size := match s.selected with
    | none => some "0 B"
    | some sel => formatSize (toFloat64 sel.Size) 1024
  let perm := match s.selected with
    | none => "--"
    | some sel => sel.Mode
  let markedPath := match s.markedPath with
    | none => ""
    | some p => p
  let operationBar := ": " ++ s.opRepr
  let operationBar :=
    if markedPath ≠ "" then operationBar ++ (" [" ++ markedPath ++ "]") else operationBar
  let operationBar :=
    if s.opIsInput then operationBar ++ (" │ " ++ sty.OperationBarInput s.InputBuf ++ " │")
    else operationBar
  let raw := rawPath gitStatus s
  match size with
  | none => none
  | some size =>
    let finfo := sty.FinfoPermissions perm ++ " " ++ sty.FinfoSep "│" ++ " " ++
      sty.FinfoLastUpdated changeTime ++ " " ++ sty.FinfoSep "│" ++ " " ++ sty.FinfoSize size
    let header := [
      sty.SelectedPath raw ++
        spaces (max (width - (raw.length : Int) - (helpPreview.length : Int)) 0) ++
        sty.HelpMsg helpPreview,
      finfo,
      sty.OperationBar operationBar,
      sty.ErrBar s.ErrBuf]
    some (header, header.length)

/-- Nothing selected in `/tmp`, no pending operation. -/
def idleState : HeadingState :=
  { selected := none, currentDirPath := "/tmp", markedPath := none, opRepr := "",
    opIsInput := false, InputBuf := "", ErrBuf := "" }

/-! ## The status badges of `renderTree` (render.go 187-205) -/

/-- The badge text chosen at lines 192-199. -/
def treeBadge (status : GitStatus) : GoString :=
  if status.Staged then ascii " [S]"
  else if status.Modified then ascii " [M]"
  else if status.Untracked then ascii " [U]"
  else []

/-- The inner loop `for path, status := range r.gitStatus` for one line, the
map being enumerated in the order `entries`: the first entry whose path is a
substring of the line appends its badge and ends the loop. -/
def annotateLine (renderGit : GoString → GoString) (line : GoString) :
    List (GoString × GitStatus) → GoString
  | [] => line
  | (path, status) :: rest =>
    if contains line path then line ++ renderGit (treeBadge status)
    else annotateLine renderGit line rest

/-- Lines 187-205: the badges are added when the current directory's path is
not empty and the status map is not nil; `order i` is the order in which the
map is enumerated for line `i`. -/
def annotateTreeLines (renderGit : GoString → GoString) (currentDirPath : GoString)
    (gitStatus : Option StatusMap) (order : Nat → List (GoString × GitStatus))
    (croppedTreeLines : List GoString) : List GoString :=
  if currentDirPath ≠ [] ∧ gitStatus ≠ none then
    croppedTreeLines.enum.map fun il => annotateLine renderGit il.2 (order il.1)
  else croppedTreeLines

/-! # Theorems -/

/-! ### Arithmetic of the offset -/

theorem cropOffset_nonneg (n c h p o : Int) (ho : 0 ≤ o) : 0 ≤ cropOffset n c h p o := by
  unfold cropOffset
  simp only
  split_ifs <;> omega

theorem cropOffset_le_current (n c h p o : Int) (hph : 2 * p < h) (ho : 0 ≤ o) :
    cropOffset n c h p o ≤ c - min p c := by
  unfold cropOffset
  simp only
  split_ifs <;> omega

theorem cropOffset_room_after (n c h p o : Int) (hph : 2 * p < h) (ho : 0 ≤ o) :
    min p (n - 1 - c) ≤ cropLimit n h (cropOffset n c h p o) - 1 - c := by
  unfold cropLimit cropOffset
  simp only
  split_ifs <;> omega

/-! ### The slice -/

theorem goSlice_eq_some {α : Type} (xs : List α) (lo hi : Int)
    (h0 : 0 ≤ lo) (h1 : lo ≤ hi) (h2 : hi ≤ (xs.length : Int)) :
    goSlice xs lo hi = some ((xs.drop lo.toNat).take (hi - lo).toNat) := by
  unfold goSlice
  rw [if_pos ⟨h0, h1, h2⟩]

theorem goSlice_length {α : Type} (xs w : List α) (lo hi : Int)
    (h : goSlice xs lo hi = some w) : (w.length : Int) = hi - lo := by
  unfold goSlice at h
  split_ifs at h with hb
  obtain ⟨h0, h1, h2⟩ := hb
  simp only [Option.some.injEq] at h
  subst h
  rw [List.length_take, List.length_drop]
  omega

theorem goSlice_getElem? {α : Type} (xs w : List α) (lo hi : Int) (k : Nat)
    (h : goSlice xs lo hi = some w) (hk : (k : Int) < hi - lo) :
    w[k]? = xs[lo.toNat + k]? := by
  unfold goSlice at h
  split_ifs at h with hb
  obtain ⟨h0, h1, h2⟩ := hb
  simp only [Option.some.injEq] at h
  subst h
  rw [List.getElem?_take_of_lt (by omega), List.getElem?_drop]

/-- C1: for a non-empty list, a selection inside it, `0 <= EdgePadding`,
`2*EdgePadding < height` and a remembered offset `>= 0`, `cropTree` returns a
window that holds `lines[currentLine]` at position `currentLine - newOffset`,
with at least `min(EdgePadding, currentLine)` rows before it and at least
`min(EdgePadding, len(lines) - 1 - currentLine)` rows after it. -/
theorem cropTree_selection_in_padded_window (r : Scroll) (lines : List String)
    (currentLine height : Int) (hne : lines ≠ [])
    (hc0 : 0 ≤ currentLine) (hcn : currentLine < (lines.length : Int))
    (hp : 0 ≤ r.EdgePadding) (hph : 2 * r.EdgePadding < height)
    (ho : 0 ≤ r.offsetMem) :
    ∃ (w : List String) (r1 : Scroll),
      cropTree r lines currentLine height = some (w, r1) ∧
      0 ≤ currentLine - r1.offsetMem ∧
      currentLine - r1.offsetMem < (w.length : Int) ∧
      w[(currentLine - r1.offsetMem).toNat]? = lines[currentLine.toNat]? ∧
      lines[currentLine.toNat]? ≠ none ∧
      min r.EdgePadding currentLine ≤ currentLine - r1.offsetMem ∧
      min r.EdgePadding ((lines.length : Int) - 1 - currentLine)
        ≤ (w.length : Int) - 1 - (currentLine - r1.offsetMem) := by
  have _hlen : 0 < lines.length := List.length_pos.mpr hne
  have h0 := cropOffset_nonneg lines.length currentLine height r.EdgePadding r.offsetMem ho
  have h1 := cropOffset_le_current lines.length currentLine height r.EdgePadding
    r.offsetMem hph ho
  have h2 := cropOffset_room_after lines.length currentLine height r.EdgePadding
    r.offsetMem hph ho
  have h3 : cropLimit lines.length height
      (cropOffset lines.length currentLine height r.EdgePadding r.offsetMem)
        ≤ (lines.length : Int) := by
    unfold cropLimit; omega
  have hs := goSlice_eq_some lines _ _ h0 (by omega) h3
  refine ⟨(lines.drop (cropOffset lines.length currentLine height r.EdgePadding
      r.offsetMem).toNat).take (cropLimit lines.length height (cropOffset lines.length
      currentLine height r.EdgePadding r.offsetMem) - cropOffset lines.length currentLine
      height r.EdgePadding r.offsetMem).toNat,
    ⟨r.EdgePadding, cropOffset lines.length currentLine height r.EdgePadding r.offsetMem⟩,
    ?_, ?_, ?_, ?_, ?_, ?_, ?_⟩
  · unfold cropTree
    simp only [hs]
  · simp only; omega
  · rw [goSlice_length _ _ _ _ hs]; simp only; omega
  · rw [goSlice_getElem? _ _ _ _ _ hs (by simp only; omega)]
    congr 1
    simp only
    omega
  · rw [Ne, List.getElem?_eq_none_iff]; omega
  · simp only; omega
  · rw [goSlice_length _ _ _ _ hs]; simp only; omega

/-- Instance of C1: five rows, height 3, padding 1, selection on row 3. -/
theorem cropTree_selection_in_padded_window_witness :
    ∃ (w : List String) (r1 : Scroll),
      cropTree ⟨1, 0⟩ ["r", "a", "b", "c", "d"] 3 3 = some (w, r1) ∧
      0 ≤ (3 : Int) - r1.offsetMem ∧
      (3 : Int) - r1.offsetMem < (w.length : Int) ∧
      w[((3 : Int) - r1.offsetMem).toNat]? = ["r", "a", "b", "c", "d"][(3 : Int).toNat]? ∧
      ["r", "a", "b", "c", "d"][(3 : Int).toNat]? ≠ none ∧
      min (1 : Int) 3 ≤ 3 - r1.offsetMem ∧
      min (1 : Int) ((["r", "a", "b", "c", "d"].length : Int) - 1 - 3)
        ≤ (w.length : Int) - 1 - (3 - r1.offsetMem) :=
  cropTree_selection_in_padded_window ⟨1, 0⟩ ["r", "a", "b", "c", "d"] 3 3
    (by decide) (by decide) (by decide) (by decide) (by decide) (by decide)

/-- C2 (the code leaves a stale offset out of range): with height 5 and padding 1,
a frame of 20 rows with row 10 selected stores offset 7; when the next frame has
only 11 rows (row 10 still selected) neither `if` fires, the stored offset stays
7, above `max(0, 11 - 5) = 6`, and only 4 rows are shown. With 3 rows, height 5
and a remembered offset 1, the stored offset stays 1 although
`len(lines) <= height`. -/
theorem cropTree_stale_offset_exceeds_range :
    cropTree ⟨1, 0⟩ ["r0", "r1", "r2", "r3", "r4", "r5", "r6", "r7", "r8", "r9",
      "r10", "r11", "r12", "r13", "r14", "r15", "r16", "r17", "r18", "r19"] 10 5
      = some (["r7", "r8", "r9", "r10", "r11"], ⟨1, 7⟩) ∧
    cropTree ⟨1, 7⟩ ["r0", "r1", "r2", "r3", "r4", "r5", "r6", "r7", "r8", "r9", "r10"] 10 5
      = some (["r7", "r8", "r9", "r10"], ⟨1, 7⟩) ∧
    ¬ ((7 : Int) ≤ max 0 (((11 : Nat) : Int) - 5)) ∧
    cropTree ⟨1, 1⟩ ["r0", "r1", "r2"] 2 5 = some (["r1", "r2"], ⟨1, 1⟩) := by
  refine ⟨by decide, by decide, by decide, by decide⟩

/-! ### The explicit-stack loop against the recursive listing -/

theorem Node.induct (P : Node → Prop) (hnull : P .null)
    (hleaf : ∀ a i, P (.mk a i none))
    (hbranch : ∀ a i cs, (∀ c ∈ cs, P c) → P (.mk a i (some cs))) : ∀ n, P n := by
  intro n
  refine Node.rec (motive_1 := P)
    (motive_2 := fun o => ∀ cs, o = some cs → ∀ c ∈ cs, P c)
    (motive_3 := fun cs => ∀ c ∈ cs, P c) hnull ?_ ?_ ?_ ?_ ?_ n
  · intro a i ch ih
    cases ch with
    | none => exact hleaf a i
    | some cs => exact hbranch a i cs (ih cs rfl)
  · intro cs h; cases h
  · intro cs ih cs1 h
    cases h
    exact ih
  · intro c h; cases h
  · intro hd tl ih1 ih2 c hc
    rcases List.mem_cons.mp hc with h | h
    · exact h ▸ ih1
    · exact ih2 c h

theorem Node.size_pos (n : Node) : 0 < n.size := by
  cases n with
  | null => simp [Node.size, Node.nodes]
  | mk a i ch =>
    cases ch with
    | none => simp [Node.size, Node.nodes]
    | some cs => simp [Node.size, Node.nodes]

theorem truncateName_eq (name : String) (i w : Int) :
    truncateName name i w = some (clipName name i w) := by
  unfold truncateName clipName
  simp only [String.length]
  split_ifs with h
  · have hs := goSlice_eq_some name.data 0 (max 0 (w - i - 6)) (le_refl 0)
      (le_max_left _ _) (max_le (by omega) (by omega))
    rw [hs]
    have ht : (max 0 (w - i - 6) - 0).toNat = (w - i - 6).toNat := by
      rcases le_total 0 (w - i - 6) with h1 | h1
      · rw [max_eq_right h1, sub_zero]
      · rw [max_eq_left h1, sub_zero, Int.toNat_zero, Int.toNat_of_nonpos h1]
    simp only [Int.toNat_zero, List.drop_zero, ht]
  · rfl

theorem siblingEls_append_singleton (pi : String) (pre : List Node) (x : Node)
    (suf : List Node) :
    siblingEls pi (pre ++ x :: suf) = siblingEls pi (pre ++ [x] ++ suf) := by
  simp

theorem pushChildren_prefix (cs : List Node) (pi : String) (s : List StackEl) :
    ∀ (pre suf : List Node), cs = pre ++ suf →
      pushChildren cs pi pre.length (siblingEls pi suf ++ s) = siblingEls pi cs ++ s := by
  intro pre
  induction pre using List.reverseRecOn with
  | nil =>
    intro suf h
    simp [pushChildren, h]
  | append_singleton pre x ih =>
    intro suf h
    have hx : cs[pre.length]? = some x := by
      rw [h, List.append_assoc, List.getElem?_append_right (le_refl _)]
      simp
    have hlen : cs.length = pre.length + 1 + suf.length := by
      rw [h]; simp only [List.length_append, List.length_singleton]
    rw [List.length_append, List.length_singleton, pushChildren, hx]
    simp only
    have hflag : decide ((pre.length : Int) = (cs.length : Int) - 1) = suf.isEmpty := by
      cases suf with
      | nil => simp [hlen]
      | cons y ys =>
        simp only [List.isEmpty_cons, decide_eq_false_iff_not, hlen, List.length_cons]
        omega
    rw [hflag]
    have := ih (x :: suf) (by rw [h]; simp)
    simpa [siblingEls] using this

theorem pushChildren_eq (cs : List Node) (pi : String) (s : List StackEl) :
    pushChildren cs pi cs.length s = siblingEls pi cs ++ s := by
  have := pushChildren_prefix cs pi s cs [] (by simp)
  simpa [siblingEls] using this

theorem stackRows_append (sty : Stylesheet) (tree : Tree) (width : Int)
    (a b : List StackEl) :
    stackRows sty tree width (a ++ b)
      = stackRows sty tree width a ++ stackRows sty tree width b := by
  induction a with
  | nil => simp [stackRows]
  | cons el a ih => simp [stackRows, ih]

theorem stackRows_siblingEls (sty : Stylesheet) (tree : Tree) (width : Int)
    (pi : String) (cs : List Node) :
    stackRows sty tree width (siblingEls pi cs)
      = listChildren sty tree width tree.Root.ptr cs pi := by
  induction cs with
  | nil => simp [stackRows, siblingEls, listChildren]
  | cons c cs ih => simp [stackRows, siblingEls, listChildren, ih]

theorem stackSize_append (a b : List StackEl) :
    stackSize (a ++ b) = stackSize a + stackSize b := by
  induction a with
  | nil => simp [stackSize]
  | cons el a ih => simp [stackSize, ih]; omega

theorem stackSize_siblingEls (pi : String) (cs : List Node) :
    stackSize (siblingEls pi cs) = (Node.nodesList cs).length := by
  induction cs with
  | nil => simp [stackSize, siblingEls, Node.nodesList]
  | cons c cs ih => simp [stackSize, siblingEls, Node.nodesList, ih, Node.size]

theorem loopBody_leaf (sty : Stylesheet) (tree : Tree) (width : Int) (a : Nat)
    (i : FileInfo) (pi : String) (l : Bool) (st : LoopState) :
    loopBody sty tree width ⟨.mk a i none, pi, l⟩ st =
      some { s := st.s,
             lines := st.lines ++ [rowText sty tree width
               (if some a = tree.Root.ptr then ""
                else pi ++ (if l then indentCurrentLast else indentCurrent)) a i],
             linen := st.linen + 1,
             currentLine :=
               if tree.selectedChild = some a then st.linen + 1 else st.currentLine } := by
  have hp : (Node.mk a i none).ptr = some a := rfl
  simp only [loopBody, hp, truncateName_eq, rowText]
  generalize tree.Root.ptr = rp
  by_cases hr : some a = rp
  · subst hr
    cases l <;> by_cases hs : tree.selectedChild = some a <;> simp [hs]
  · cases l <;> by_cases hs : tree.selectedChild = some a <;> simp [hr, hs]

theorem loopBody_branch (sty : Stylesheet) (tree : Tree) (width : Int) (a : Nat)
    (i : FileInfo) (cs : List Node) (pi : String) (l : Bool) (st : LoopState) :
    loopBody sty tree width ⟨.mk a i (some cs), pi, l⟩ st =
      some { s := siblingEls
               (if some a = tree.Root.ptr then pi
                else pi ++ (if l then indentEmpty else indentParent)) cs ++ st.s,
             lines := st.lines ++ [rowText sty tree width
               (if some a = tree.Root.ptr then ""
                else pi ++ (if l then indentCurrentLast else indentCurrent)) a i]
               ++ (placeholderRows sty tree a cs
                 (if some a = tree.Root.ptr then pi
                  else pi ++ (if l then indentEmpty else indentParent))).map Prod.snd,
             linen := st.linen + 1,
             currentLine :=
               (((placeholderRows sty tree a cs
                 (if some a = tree.Root.ptr then pi
                  else pi ++ (if l then indentEmpty else indentParent))).map Prod.fst).foldl
                 (trackStep tree.selectedChild)
                 (st.linen + 1,
                  if tree.selectedChild = some a then st.linen + 1 else st.currentLine)).2 } := by
  have hp : (Node.mk a i (some cs)).ptr = some a := rfl
  simp only [loopBody, hp, truncateName_eq, rowText, pushChildren_eq, placeholderRows,
    placeholderRow]
  generalize tree.Root.ptr = rp
  by_cases hr : some a = rp
  · subst hr
    cases l <;> by_cases hs : tree.selectedChild = some a <;>
      by_cases hc : cs.length = 0 <;> by_cases hd : tree.CurrentDir = some a <;>
      simp [hs, hc, hd, trackStep]
  · cases l <;> by_cases hs : tree.selectedChild = some a <;>
      by_cases hc : cs.length = 0 <;> by_cases hd : tree.CurrentDir = some a <;>
      simp [hr, hs, hc, hd, trackStep]

theorem Node.mem_nodesList (m : Node) (cs : List Node) :
    m ∈ Node.nodesList cs ↔ ∃ c ∈ cs, m ∈ c.nodes := by
  induction cs with
  | nil => simp [Node.nodesList]
  | cons c cs ih => simp [Node.nodesList, ih]

theorem Node.noNil_null : Node.null.noNil = false := by
  simp [Node.noNil, Node.nodes, Node.ptr]

theorem Node.noNil_child (a : Nat) (i : FileInfo) (cs : List Node)
    (h : (Node.mk a i (some cs)).noNil = true) : ∀ c ∈ cs, c.noNil = true := by
  intro c hc
  simp only [Node.noNil, Node.nodes, List.all_cons, Bool.and_eq_true, List.all_eq_true] at h ⊢
  intro m hm
  exact h.2 m ((Node.mem_nodesList m cs).mpr ⟨c, hc, hm⟩)

theorem mem_siblingEls (pi : String) (cs : List Node) (el : StackEl)
    (h : el ∈ siblingEls pi cs) : el.node ∈ cs := by
  induction cs with
  | nil => simp [siblingEls] at h
  | cons c cs ih =>
    simp only [siblingEls, List.mem_cons] at h
    rcases h with h | h
    · subst h; simp
    · exact List.mem_cons_of_mem _ (ih h)

theorem placeholderRows_track (sty : Stylesheet) (tree : Tree) (a : Nat) (cs : List Node)
    (ci : String) (sel : Ptr) (x y : Int) :
    (x, (((placeholderRows sty tree a cs ci).map Prod.fst).foldl (trackStep sel) (x, y)).2)
      = ((placeholderRows sty tree a cs ci).map Prod.fst).foldl (trackStep sel) (x, y) := by
  unfold placeholderRows
  split_ifs <;> simp [trackStep]

/-- With enough fuel for the nodes on the stack, the loop returns the rows of
the recursive listing of the stack elements appended to `lines`, and the
selection index obtained by replaying the listing's tags. -/
theorem renderLoop_eq (sty : Stylesheet) (tree : Tree) (width : Int) :
    ∀ (fuel : Nat) (st : LoopState),
      (∀ el ∈ st.s, el.node.noNil = true) → stackSize st.s ≤ fuel →
      renderLoop sty tree width fuel st =
        some (st.lines ++ (stackRows sty tree width st.s).map Prod.snd,
          (((stackRows sty tree width st.s).map Prod.fst).foldl
            (trackStep tree.selectedChild) (st.linen, st.currentLine)).2) := by
  intro fuel
  induction fuel with
  | zero =>
    intro st hn hf
    rcases st with ⟨s, lines, linen, cur⟩
    cases s with
    | nil => simp [renderLoop, stackRows]
    | cons el rest =>
      have := Node.size_pos el.node
      simp only [stackSize] at hf
      omega
  | succ fuel ih =>
    intro st hn hf
    rcases st with ⟨s, lines, linen, cur⟩
    cases s with
    | nil => simp [renderLoop, stackRows]
    | cons el rest =>
      rcases el with ⟨node, pi, l⟩
      have hnode : node.noNil = true := hn ⟨node, pi, l⟩ (List.mem_cons_self _ _)
      have hrest : ∀ el ∈ rest, el.node.noNil = true :=
        fun el h => hn el (List.mem_cons_of_mem _ h)
      cases node with
      | null => simp [Node.noNil_null] at hnode
      | mk a i ch =>
        cases ch with
        | none =>
          rw [renderLoop]
          simp only [loopBody_leaf]
          rw [ih _ hrest (by
            simp only [stackSize, Node.size, Node.nodes, List.length_singleton] at hf ⊢
            omega)]
          simp [stackRows, listNode, trackStep]
        | some cs =>
          rw [renderLoop]
          simp only [loopBody_branch]
          rw [ih _ (by
              intro el hel
              rcases List.mem_append.mp hel with h | h
              · exact Node.noNil_child a i cs hnode _ (mem_siblingEls _ _ _ h)
              · exact hrest el h) (by
            simp only [stackSize, Node.size, Node.nodes, List.length_cons,
              stackSize_append, stackSize_siblingEls] at hf ⊢
            omega)]
          simp [stackRows, listNode, trackStep, stackRows_append, stackRows_siblingEls,
            List.foldl_append, placeholderRows_track]

/-! ### The listing, flattened over the pre-order node list -/

theorem Node.addrs_branch (a : Nat) (i : FileInfo) (cs : List Node) :
    (Node.mk a i (some cs)).addrs = a :: (Node.nodesList cs).filterMap Node.ptr := by
  simp [Node.addrs, Node.nodes, Node.ptr]

theorem listNode_root_irrelevant (sty : Stylesheet) (tree : Tree) (width : Int) (r : Nat) :
    ∀ n : Node, r ∉ n.addrs → ∀ (pi : String) (l : Bool),
      listNode sty tree width (some r) n pi l = listNode sty tree width none n pi l := by
  intro n
  induction n using Node.induct with
  | hnull => intro _ pi l; simp [listNode]
  | hleaf a i =>
    intro h pi l
    have har : a ≠ r := by
      intro e; apply h; simp [Node.addrs, Node.nodes, Node.ptr, e]
    simp [listNode, har]
  | hbranch a i cs ih =>
    intro h pi l
    rw [Node.addrs_branch] at h
    have har : a ≠ r := by
      intro e; apply h; simp [e]
    have hcs : ∀ c ∈ cs, r ∉ c.addrs := by
      intro c hc hr
      apply h
      refine List.mem_cons_of_mem _ ?_
      simp only [Node.addrs, List.mem_filterMap] at hr ⊢
      obtain ⟨m, hm, hp⟩ := hr
      exact ⟨m, (Node.mem_nodesList m cs).mpr ⟨c, hc, hm⟩, hp⟩
    have hlist : ∀ (ci : String), listChildren sty tree width (some r) cs ci
        = listChildren sty tree width none cs ci := by
      intro ci
      clear h
      induction cs with
      | nil => simp [listChildren]
      | cons c cs ihc =>
        simp only [listChildren]
        rw [ih c (List.mem_cons_self _ _) (hcs c (List.mem_cons_self _ _)),
          ihc (fun c hc => ih c (List.mem_cons_of_mem _ hc))
            (fun c hc => hcs c (List.mem_cons_of_mem _ hc))]
    simp [listNode, har, hlist]

theorem listNode_tags (sty : Stylesheet) (tree : Tree) (width : Int) (r : Ptr) :
    ∀ (n : Node) (pi : String) (l : Bool),
      (listNode sty tree width r n pi l).map Prod.fst = n.nodes.flatMap (tagsOf tree) := by
  intro n
  induction n using Node.induct with
  | hnull => intro pi l; simp [listNode, Node.nodes, tagsOf]
  | hleaf a i => intro pi l; simp [listNode, Node.nodes, tagsOf]
  | hbranch a i cs ih =>
    intro pi l
    have hlist : ∀ (ci : String), (listChildren sty tree width r cs ci).map Prod.fst
        = (Node.nodesList cs).flatMap (tagsOf tree) := by
      intro ci
      induction cs with
      | nil => simp [listChildren, Node.nodesList]
      | cons c cs ihc =>
        simp only [listChildren, Node.nodesList, List.map_append, List.flatMap_append]
        rw [ih c (List.mem_cons_self _ _),
          ihc (fun c hc => ih c (List.mem_cons_of_mem _ hc))]
    simp only [listNode, Node.nodes, List.map_cons, List.map_append, hlist,
      List.flatMap_cons, tagsOf, placeholderRows]
    split_ifs <;> simp

theorem tagsOf_length (tree : Tree) (m : Node) :
    (tagsOf tree m).length
      = (if m.ptr.isSome then 1 else 0) + (if isEmptyCurrent tree m then 1 else 0) := by
  cases m with
  | null => simp [tagsOf, Node.ptr, isEmptyCurrent, Node.emptyChildren]
  | mk a i ch =>
    cases ch with
    | none => simp [tagsOf, Node.ptr, isEmptyCurrent, Node.emptyChildren]
    | some cs =>
      cases cs with
      | nil =>
        by_cases h : tree.CurrentDir = some a
        · simp [tagsOf, Node.ptr, isEmptyCurrent, Node.emptyChildren, h]
        · have h1 : ¬ (some a = tree.CurrentDir) := fun e => h e.symm
          simp [tagsOf, Node.ptr, isEmptyCurrent, Node.emptyChildren, h, h1]
      | cons c cs => simp [tagsOf, Node.ptr, isEmptyCurrent, Node.emptyChildren]

theorem flatMap_tagsOf_length (tree : Tree) (ns : List Node)
    (hn : ∀ m ∈ ns, m.ptr.isSome = true) :
    (ns.flatMap (tagsOf tree)).length = ns.length + ns.countP (isEmptyCurrent tree) := by
  induction ns with
  | nil => simp
  | cons m ns ih =>
    have h1 := hn m (List.mem_cons_self _ _)
    have h2 := ih (fun m hm => hn m (List.mem_cons_of_mem _ hm))
    rw [List.flatMap_cons, List.length_append, h2, tagsOf_length, List.countP_cons]
    simp only [h1, if_true, List.length_cons]
    omega

theorem isEmptyCurrent_ptr (tree : Tree) (m : Node) (h : isEmptyCurrent tree m = true) :
    m.ptr = tree.CurrentDir ∧ ∃ a, m.ptr = some a := by
  cases m with
  | null => simp [isEmptyCurrent, Node.emptyChildren] at h
  | mk a i ch =>
    simp only [isEmptyCurrent, Bool.and_eq_true, decide_eq_true_eq] at h
    exact ⟨h.1, a, rfl⟩

theorem countP_isEmptyCurrent (tree : Tree) (ns : List Node)
    (hd : (ns.filterMap Node.ptr).Nodup) :
    ns.countP (isEmptyCurrent tree) = if ns.any (isEmptyCurrent tree) then 1 else 0 := by
  induction ns with
  | nil => simp
  | cons m ns ih =>
    by_cases hm : isEmptyCurrent tree m = true
    · obtain ⟨hp, a, ha⟩ := isEmptyCurrent_ptr tree m hm
      have hd1 : a ∉ ns.filterMap Node.ptr := by
        rw [List.filterMap_cons, ha] at hd
        exact (List.nodup_cons.mp hd).1
      have hnone : ns.countP (isEmptyCurrent tree) = 0 := by
        rw [List.countP_eq_zero]
        intro m1 hm1 hp1
        apply hd1
        rw [List.mem_filterMap]
        refine ⟨m1, hm1, ?_⟩
        rw [(isEmptyCurrent_ptr tree m1 hp1).1, ← hp, ha]
      rw [List.countP_cons, hnone]
      simp [hm]
    · have hd1 : (ns.filterMap Node.ptr).Nodup := by
        rw [List.filterMap_cons] at hd
        cases hq : m.ptr with
        | none => rw [hq] at hd; exact hd
        | some a => rw [hq] at hd; exact (List.nodup_cons.mp hd).2
      rw [List.countP_cons, ih hd1]
      simp [hm]

theorem listChildren_root_irrelevant (sty : Stylesheet) (tree : Tree) (width : Int)
    (a : Nat) (cs : List Node) (hnot : a ∉ List.filterMap Node.ptr (Node.nodesList cs))
    (ci : String) :
    listChildren sty tree width (some a) cs ci = listChildren sty tree width none cs ci := by
  induction cs with
  | nil => simp [listChildren]
  | cons c cs ihc =>
    have hc : a ∉ c.addrs := by
      intro h
      apply hnot
      simp only [Node.addrs, List.mem_filterMap] at h ⊢
      obtain ⟨m, hm, hp⟩ := h
      exact ⟨m, (Node.mem_nodesList m _).mpr ⟨c, List.mem_cons_self _ _, hm⟩, hp⟩
    have hcs : a ∉ List.filterMap Node.ptr (Node.nodesList cs) := by
      intro h
      apply hnot
      simp only [List.mem_filterMap] at h ⊢
      obtain ⟨m, hm, hp⟩ := h
      obtain ⟨c1, hc1, hm1⟩ := (Node.mem_nodesList m _).mp hm
      exact ⟨m, (Node.mem_nodesList m _).mpr ⟨c1, List.mem_cons_of_mem _ hc1, hm1⟩, hp⟩
    simp only [listChildren]
    rw [listNode_root_irrelevant sty tree width a c hc, ihc hcs]

theorem preorderRows_eq_listNode (sty : Stylesheet) (tree : Tree) (width : Int)
    (hd : tree.Root.addrs.Nodup) :
    preorderRows sty tree width
      = listNode sty tree width tree.Root.ptr tree.Root "" false := by
  unfold preorderRows
  cases hroot : tree.Root with
  | null => simp [listNode]
  | mk a i ch =>
    cases ch with
    | none => simp [listNode, Node.ptr]
    | some cs =>
      rw [hroot, Node.addrs_branch] at hd
      have hnot := (List.nodup_cons.mp hd).1
      have hlist : ∀ (ci : String), listChildren sty tree width (some a) cs ci
          = listChildren sty tree width none cs ci :=
        fun ci => listChildren_root_irrelevant sty tree width a cs hnot ci
      simp [listNode, Node.ptr, hlist]

theorem renderTreeFull_eq (sty : Stylesheet) (tree : Tree) (width : Int) (fuel : Nat)
    (hnil : tree.Root.noNil = true) (hd : tree.Root.addrs.Nodup)
    (hfuel : tree.Root.size ≤ fuel) :
    renderTreeFull sty tree width fuel =
      some ((preorderRows sty tree width).map Prod.snd,
        ((tree.Root.nodes.flatMap (tagsOf tree)).foldl
          (trackStep tree.selectedChild) (-1, 0)).2) := by
  unfold renderTreeFull
  rw [renderLoop_eq sty tree width fuel _ (by
      intro el hel
      simp only [List.mem_singleton] at hel
      subst hel
      exact hnil) (by simpa [stackSize] using hfuel)]
  simp [stackRows, preorderRows_eq_listNode sty tree width hd, listNode_tags]

theorem preorderRows_tags (sty : Stylesheet) (tree : Tree) (width : Int)
    (hd : tree.Root.addrs.Nodup) :
    (preorderRows sty tree width).map Prod.fst = tree.Root.nodes.flatMap (tagsOf tree) := by
  rw [preorderRows_eq_listNode sty tree width hd, listNode_tags]

theorem noNil_iff (n : Node) : n.noNil = true ↔ ∀ m ∈ n.nodes, m.ptr.isSome = true := by
  simp [Node.noNil]

/-- C3: for a tree without nil children and with pairwise distinct node
pointers, the explicit-stack loop of `renderTreeFull` stops within `N` iterations
(`N` the number of nodes) and returns exactly the rows of the recursive
pre-order listing: one row per node in pre-order, the placeholder directly
after the row of an empty current directory; the result has `N` rows (`N + 1`
with the placeholder) and is not empty. -/
theorem renderTreeFull_preorder (sty : Stylesheet) (tree : Tree) (width : Int) (fuel : Nat)
    (hnil : tree.Root.noNil = true) (hd : tree.Root.addrs.Nodup)
    (hfuel : tree.Root.size ≤ fuel) :
    ∃ idx : Int,
      renderTreeFull sty tree width fuel
        = some ((preorderRows sty tree width).map Prod.snd, idx) ∧
      (preorderRows sty tree width).map Prod.fst
        = tree.Root.nodes.flatMap (tagsOf tree) ∧
      ((preorderRows sty tree width).map Prod.snd).length
        = tree.Root.size + (if tree.currentDirEmpty then 1 else 0) ∧
      (preorderRows sty tree width).map Prod.snd ≠ [] := by
  have hlen : ((preorderRows sty tree width).map Prod.snd).length
      = tree.Root.size + (if tree.currentDirEmpty then 1 else 0) := by
    have h1 : ((preorderRows sty tree width).map Prod.snd).length
        = ((preorderRows sty tree width).map Prod.fst).length := by simp
    rw [h1, preorderRows_tags sty tree width hd,
      flatMap_tagsOf_length tree _ ((noNil_iff _).mp hnil),
      countP_isEmptyCurrent tree _ hd]
    rfl
  refine ⟨_, renderTreeFull_eq sty tree width fuel hnil hd hfuel,
    preorderRows_tags sty tree width hd, hlen, ?_⟩
  intro h
  rw [h] at hlen
  have := Node.size_pos tree.Root
  simp only [List.length_nil] at hlen
  omega

/-- Instance of C3: root with `a.txt` and the empty directory `b`. -/
theorem renderTreeFull_preorder_witness :
    ∃ idx : Int,
      renderTreeFull Stylesheet.plain exampleTree 40 3
        = some ((preorderRows Stylesheet.plain exampleTree 40).map Prod.snd, idx) ∧
      (preorderRows Stylesheet.plain exampleTree 40).map Prod.fst
        = exampleTree.Root.nodes.flatMap (tagsOf exampleTree) ∧
      ((preorderRows Stylesheet.plain exampleTree 40).map Prod.snd).length
        = exampleTree.Root.size + (if exampleTree.currentDirEmpty then 1 else 0) ∧
      (preorderRows Stylesheet.plain exampleTree 40).map Prod.snd ≠ [] :=
  renderTreeFull_preorder Stylesheet.plain exampleTree 40 3 (by decide) (by decide)
    (by decide)

/-! ### The selection index -/

theorem Node.self_mem_nodes (n : Node) : n ∈ n.nodes := by
  cases n with
  | null => simp [Node.nodes]
  | mk a i ch =>
    cases ch with
    | none => simp [Node.nodes]
    | some cs => simp [Node.nodes]

theorem Node.child_mem_nodes :
    ∀ n : Node, ∀ d ∈ n.nodes, ∀ c ∈ d.childList, c ∈ n.nodes := by
  intro n
  induction n using Node.induct with
  | hnull =>
    intro d hd c hc
    simp only [Node.nodes, List.mem_singleton] at hd
    subst hd
    simp [Node.childList] at hc
  | hleaf a i =>
    intro d hd c hc
    simp only [Node.nodes, List.mem_singleton] at hd
    subst hd
    simp [Node.childList] at hc
  | hbranch a i cs ih =>
    intro d hd c hc
    simp only [Node.nodes, List.mem_cons] at hd ⊢
    right
    rcases hd with hd | hd
    · subst hd
      simp only [Node.childList] at hc
      exact (Node.mem_nodesList c cs).mpr ⟨c, hc, Node.self_mem_nodes c⟩
    · obtain ⟨c1, hc1, hd1⟩ := (Node.mem_nodesList d cs).mp hd
      exact (Node.mem_nodesList c cs).mpr ⟨c1, hc1, ih c1 hc1 d hd1 c hc⟩

theorem ptr_injective_of_nodup (ns : List Node) (hd : (ns.filterMap Node.ptr).Nodup)
    (m1 m2 : Node) (h1 : m1 ∈ ns) (h2 : m2 ∈ ns) (b : Nat)
    (hp1 : m1.ptr = some b) (hp2 : m2.ptr = some b) : m1 = m2 := by
  induction ns with
  | nil => simp at h1
  | cons x xs ih =>
    have hmem : ∀ m ∈ xs, m.ptr = some b → b ∈ xs.filterMap Node.ptr := by
      intro m hm hp
      exact List.mem_filterMap.mpr ⟨m, hm, hp⟩
    have hd1 : (xs.filterMap Node.ptr).Nodup := by
      rw [List.filterMap_cons] at hd
      cases hq : x.ptr with
      | none => rw [hq] at hd; exact hd
      | some a => rw [hq] at hd; exact (List.nodup_cons.mp hd).2
    rcases List.mem_cons.mp h1 with e1 | e1 <;> rcases List.mem_cons.mp h2 with e2 | e2
    · rw [e1, e2]
    · exfalso
      rw [List.filterMap_cons, ← e1, hp1] at hd
      exact (List.nodup_cons.mp hd).1 (hmem m2 e2 hp2)
    · exfalso
      rw [List.filterMap_cons, ← e2, hp2] at hd
      exact (List.nodup_cons.mp hd).1 (hmem m1 e1 hp1)
    · exact ih hd1 e1 e2

theorem flatMap_tagsOf_of_noEmpty (tree : Tree) (ns : List Node)
    (h : ∀ m ∈ ns, isEmptyCurrent tree m = false) :
    ns.flatMap (tagsOf tree) = (ns.filterMap Node.ptr).map RowTag.node := by
  induction ns with
  | nil => simp
  | cons m ns ih =>
    have hm := h m (List.mem_cons_self _ _)
    rw [List.flatMap_cons, ih (fun m hm => h m (List.mem_cons_of_mem _ hm))]
    cases m with
    | null => simp [tagsOf, Node.ptr]
    | mk a i ch =>
      cases ch with
      | none => simp [tagsOf, Node.ptr]
      | some cs =>
        have hne : ¬ (cs.length = 0 ∧ tree.CurrentDir = some a) := by
          rintro ⟨h1, h2⟩
          have : cs = [] := List.length_eq_zero.mp h1
          subst this
          simp [isEmptyCurrent, Node.ptr, Node.emptyChildren, h2] at hm
        simp only [tagsOf, if_neg hne, Node.ptr, List.filterMap_cons, List.map_cons,
          List.singleton_append]

theorem count_emptyDir_tags (tree : Tree) (ns : List Node) :
    (ns.flatMap (tagsOf tree)).count RowTag.emptyDir = ns.countP (isEmptyCurrent tree) := by
  induction ns with
  | nil => simp
  | cons m ns ih =>
    rw [List.flatMap_cons, List.count_append, ih, List.countP_cons]
    cases m with
    | null => simp [tagsOf, isEmptyCurrent, Node.emptyChildren]
    | mk a i ch =>
      cases ch with
      | none => simp [tagsOf, isEmptyCurrent, Node.emptyChildren]
      | some cs =>
        cases cs with
        | nil =>
          by_cases h : tree.CurrentDir = some a
          · simp [tagsOf, isEmptyCurrent, Node.emptyChildren, Node.ptr, h]
            omega
          · have h1 : ¬ (some a = tree.CurrentDir) := fun e => h e.symm
            simp [tagsOf, isEmptyCurrent, Node.emptyChildren, Node.ptr, h, h1]
        | cons c cs => simp [tagsOf, isEmptyCurrent, Node.emptyChildren]

theorem track_node_tags (a : Nat) :
    ∀ (as : List Nat) (k cur : Int), as.Nodup →
      (as.map RowTag.node).foldl (trackStep (some a)) (k, cur)
        = (k + as.length, if a ∈ as then k + 1 + (as.indexOf a : Int) else cur) := by
  intro as
  induction as with
  | nil => intro k cur _; simp
  | cons b bs ih =>
    intro k cur hnd
    obtain ⟨hb, hbs⟩ := List.nodup_cons.mp hnd
    rw [List.map_cons, List.foldl_cons, trackStep, ih _ _ hbs]
    by_cases hab : a = b
    · subst hab
      simp [hb]
      omega
    · have hba : b ≠ a := fun e => hab e.symm
      by_cases hm : a ∈ bs
      · simp [hab, hm, List.indexOf_cons_ne _ hba]
        omega
      · simp [hab, hm]
        omega

theorem track_no_event :
    ∀ (tags : List RowTag) (k cur : Int), RowTag.emptyDir ∉ tags →
      tags.foldl (trackStep none) (k, cur) = (k + tags.length, cur) := by
  intro tags
  induction tags with
  | nil => intro k cur _; simp
  | cons t ts ih =>
    intro k cur h
    have ht : RowTag.emptyDir ∉ ts := fun e => h (List.mem_cons_of_mem _ e)
    cases t with
    | node b =>
      rw [List.foldl_cons, trackStep, ih _ _ ht]
      simp
      omega
    | emptyDir => exact absurd (List.mem_cons_self _ _) h

theorem track_single_placeholder :
    ∀ (tags : List RowTag) (k cur : Int), tags.count RowTag.emptyDir = 1 →
      (tags.foldl (trackStep none) (k, cur)).2
        = k + 1 + (tags.indexOf RowTag.emptyDir : Int) := by
  intro tags
  induction tags with
  | nil => intro k cur h; simp at h
  | cons t ts ih =>
    intro k cur h
    cases t with
    | node b =>
      have hc : ts.count RowTag.emptyDir = 1 := by
        rw [List.count_cons] at h
        simpa using h
      rw [List.foldl_cons, trackStep, ih _ _ hc,
        List.indexOf_cons_ne _ (by simp : RowTag.node b ≠ RowTag.emptyDir)]
      simp
      omega
    | emptyDir =>
      have hc : RowTag.emptyDir ∉ ts := by
        rw [List.count_cons] at h
        simp only [beq_self_eq_true, if_true] at h
        exact List.count_eq_zero.mp (by omega)
      rw [List.foldl_cons, trackStep, track_no_event ts _ _ hc,
        List.indexOf_cons_eq _ rfl]
      simp

theorem suffix_arrow_absurd (X D N : List Char)
    (hX : X = [] ∨ ∃ P, X = P ++ ['└', '─', ' '] ∨ X = P ++ ['├', '─', ' '])
    (hD : D = N ∨ ∃ T, D = T ++ ['.', '.', '.'])
    (hN : ¬ (['<', '-'] <:+ N)) : ¬ ([' ', '<', '-'] <:+ X ++ D) := by
  rw [← List.reverse_prefix] at hN ⊢
  rcases hD with hD | ⟨T, hD⟩
  · subst hD
    obtain ⟨R, hR⟩ : ∃ R, D = R.reverse := ⟨D.reverse, by simp⟩
    subst hR
    simp only [List.reverse_reverse, List.reverse_append, List.reverse_cons, List.reverse_nil,
      List.nil_append, List.cons_append] at hN ⊢
    rcases R with _ | ⟨c1, _ | ⟨c2, rest⟩⟩
    · rcases hX with hX | ⟨P, hX | hX⟩ <;> subst hX <;> simp [List.cons_prefix_cons]
    · rcases hX with hX | ⟨P, hX | hX⟩ <;> subst hX <;> simp [List.cons_prefix_cons]
    · simp only [List.cons_append, List.cons_prefix_cons, List.nil_prefix, and_true] at hN ⊢
      tauto
  · subst hD
    simp [List.cons_prefix_cons]

theorem plain_row_no_arrow (tree : Tree) (width : Int) (ind : String) (b : Nat)
    (info : FileInfo) (hsel : tree.selectedChild ≠ some b) (hind : indentShape ind)
    (hname : hasSuffix info.Name "<-" = false) :
    hasSuffix (rowText Stylesheet.plain tree width ind b info) arrow = false := by
  have hrow : rowText Stylesheet.plain tree width ind b info
      = ind ++ clipName info.Name ind.length width := by
    simp [rowText, Stylesheet.plain, hsel]
  rw [hrow]
  rw [Bool.eq_false_iff, Ne, hasSuffix, List.isSuffixOf_iff_suffix, String.data_append]
  have hn : ¬ (['<', '-'] <:+ info.Name.data) := by
    rw [Bool.eq_false_iff, Ne, hasSuffix, List.isSuffixOf_iff_suffix] at hname
    exact hname
  refine suffix_arrow_absurd ind.data _ info.Name.data ?_ ?_ hn
  · rcases hind with h | ⟨p, h | h⟩
    · left; rw [h]
    · right; exact ⟨p.data, Or.inl (by rw [h, String.data_append]; rfl)⟩
    · right; exact ⟨p.data, Or.inr (by rw [h, String.data_append]; rfl)⟩
  · unfold clipName
    split_ifs
    · right
      exact ⟨_, by rw [String.data_append]⟩
    · left; rfl

theorem indentShape_listNode (r : Ptr) (a : Nat) (pi : String) (l : Bool) :
    indentShape (if some a = r then ""
      else pi ++ (if l then indentCurrentLast else indentCurrent)) := by
  unfold indentShape
  by_cases h : some a = r
  · left; simp [h]
  · right
    refine ⟨pi, ?_⟩
    cases l <;> simp [h]

theorem placeholderRows_mem (sty : Stylesheet) (tree : Tree) (a : Nat) (cs : List Node)
    (ci : String) (x : RowTag × String) (hx : x ∈ placeholderRows sty tree a cs ci) :
    x.1 = RowTag.emptyDir := by
  unfold placeholderRows at hx
  split_ifs at hx
  · simp only [List.mem_singleton] at hx
    rw [hx]
  · simp at hx

theorem listNode_shape (sty : Stylesheet) (tree : Tree) (width : Int) (r : Ptr) :
    ∀ (n : Node) (pi : String) (l : Bool), ∀ x ∈ listNode sty tree width r n pi l,
      x.1 = RowTag.emptyDir ∨
      ∃ (a : Nat) (info : FileInfo) (ch : Option (List Node)) (ind : String),
        Node.mk a info ch ∈ n.nodes ∧
        x = (RowTag.node a, rowText sty tree width ind a info) ∧ indentShape ind := by
  intro n
  induction n using Node.induct with
  | hnull => intro pi l x hx; simp [listNode] at hx
  | hleaf a i =>
    intro pi l x hx
    simp only [listNode, List.mem_singleton] at hx
    exact Or.inr ⟨a, i, none, _, Node.self_mem_nodes _, hx, indentShape_listNode r a pi l⟩
  | hbranch a i cs ih =>
    intro pi l x hx
    simp only [listNode, List.mem_cons, List.mem_append] at hx
    rcases hx with hx | hx | hx
    · exact Or.inr ⟨a, i, some cs, _, Node.self_mem_nodes _, hx, indentShape_listNode r a pi l⟩
    · exact Or.inl (placeholderRows_mem sty tree a cs _ x hx)
    · have hlist : ∀ (ds : List Node) (ci : String), (∀ c ∈ ds, c ∈ cs) →
          ∀ x ∈ listChildren sty tree width r ds ci,
            x.1 = RowTag.emptyDir ∨
            ∃ (a1 : Nat) (info : FileInfo) (ch : Option (List Node)) (ind : String),
              Node.mk a1 info ch ∈ Node.nodesList cs ∧
              x = (RowTag.node a1, rowText sty tree width ind a1 info) ∧ indentShape ind := by
        intro ds
        induction ds with
        | nil => intro ci _ x hx; simp [listChildren] at hx
        | cons c ds ihd =>
          intro ci hsub x hx
          simp only [listChildren, List.mem_append] at hx
          rcases hx with hx | hx
          · have hc : c ∈ cs := hsub c (List.mem_cons_self _ _)
            rcases ih c hc ci ds.isEmpty x hx with h | ⟨a1, info, ch, ind, hm, he, hs⟩
            · exact Or.inl h
            · exact Or.inr ⟨a1, info, ch, ind,
                (Node.mem_nodesList _ cs).mpr ⟨c, hc, hm⟩, he, hs⟩
          · exact ihd ci (fun c hc => hsub c (List.mem_cons_of_mem _ hc)) x hx
      rcases hlist cs _ (fun c hc => hc) x hx with h | ⟨a1, info, ch, ind, hm, he, hs⟩
      · exact Or.inl h
      · refine Or.inr ⟨a1, info, ch, ind, ?_, he, hs⟩
        simp only [Node.nodes, List.mem_cons]
        exact Or.inr hm

/-- When the selected child is a child of the current directory, no
placeholder is produced and the selected pointer is a node of the tree. -/
theorem selected_facts (tree : Tree) (hnil : tree.Root.noNil = true)
    (hd : tree.Root.addrs.Nodup) (hin : tree.selectedInCurrentDir = true) :
    (∀ m ∈ tree.Root.nodes, isEmptyCurrent tree m = false) ∧
    ∃ a, tree.selectedChild = some a ∧ a ∈ tree.Root.addrs := by
  simp only [Tree.selectedInCurrentDir, List.any_eq_true, Bool.and_eq_true,
    decide_eq_true_eq] at hin
  obtain ⟨d, hdm, hdp, c, hc, hcp⟩ := hin
  have hcm : c ∈ tree.Root.nodes := Node.child_mem_nodes tree.Root d hdm c hc
  have hsome := (noNil_iff _).mp hnil
  constructor
  · intro m hm
    by_contra hne
    have he : isEmptyCurrent tree m = true := by
      cases h : isEmptyCurrent tree m with
      | true => rfl
      | false => exact absurd h hne
    obtain ⟨hp, b, hb⟩ := isEmptyCurrent_ptr tree m he
    have hmd : m = d :=
      ptr_injective_of_nodup _ hd m d hm hdm b hb (by rw [hdp, ← hp, hb])
    subst hmd
    cases m with
    | null => simp [Node.ptr] at hb
    | mk a i ch =>
      cases ch with
      | none => simp [Node.childList] at hc
      | some cs =>
        cases cs with
        | nil => simp [Node.childList] at hc
        | cons c1 cs => simp [isEmptyCurrent, Node.emptyChildren] at he
  · have h1 := hsome c hcm
    cases hq : c.ptr with
    | none => rw [hq] at h1; simp at h1
    | some a =>
      refine ⟨a, by rw [← hcp, hq], ?_⟩
      exact List.mem_filterMap.mpr ⟨c, hcm, hq⟩

theorem indexOf_map_node (a : Nat) (as : List Nat) :
    (as.map RowTag.node).indexOf (RowTag.node a) = as.indexOf a := by
  induction as with
  | nil => simp
  | cons b bs ih =>
    by_cases h : b = a
    · subst h
      rw [List.map_cons, List.indexOf_cons_eq _ rfl, List.indexOf_cons_eq _ rfl]
    · have h1 : RowTag.node b ≠ RowTag.node a := by
        intro e; exact h (RowTag.node.inj e)
      rw [List.map_cons, List.indexOf_cons_ne _ h1, List.indexOf_cons_ne _ h, ih]

theorem nodup_map_node (as : List Nat) (h : as.Nodup) : (as.map RowTag.node).Nodup :=
  List.Nodup.map (fun _ _ e => RowTag.node.inj e) h

theorem preorderRows_shape (sty : Stylesheet) (tree : Tree) (width : Int)
    (hd : tree.Root.addrs.Nodup) :
    ∀ x ∈ preorderRows sty tree width,
      x.1 = RowTag.emptyDir ∨
      ∃ (a : Nat) (info : FileInfo) (ch : Option (List Node)) (ind : String),
        Node.mk a info ch ∈ tree.Root.nodes ∧
        x = (RowTag.node a, rowText sty tree width ind a info) ∧ indentShape ind := by
  rw [preorderRows_eq_listNode sty tree width hd]
  exact listNode_shape sty tree width _ tree.Root "" false

theorem rowText_selected (sty : Stylesheet) (tree : Tree) (width : Int) (ind : String)
    (a : Nat) (info : FileInfo) (h : tree.selectedChild = some a) :
    ∃ base, rowText sty tree width ind a info = base ++ sty.TreeSelectionArrow arrow := by
  unfold rowText
  simp only [h, if_true]
  exact ⟨_, rfl⟩

/-- C4 (as amended): for a tree without nil children and with distinct
pointers, whose selected child is nil or a child of the current directory: if
the selected child is a child of the current directory, the returned index is
the position of the selected node's row, that row is the only row of that node
and carries the arrow, and with unstyled text no other row ends in the arrow
provided no node name ends in `<-`; if the current directory is empty, the
returned index is the position of the single placeholder row. -/
theorem renderTreeFull_selection_row (sty : Stylesheet) (tree : Tree) (width : Int)
    (fuel : Nat) (hnil : tree.Root.noNil = true) (hd : tree.Root.addrs.Nodup)
    (hfuel : tree.Root.size ≤ fuel)
    (hsel : tree.selectedChild = none ∨ tree.selectedInCurrentDir = true) :
    ∃ idx : Int,
      renderTreeFull sty tree width fuel
        = some ((preorderRows sty tree width).map Prod.snd, idx) ∧
      (tree.selectedInCurrentDir = true →
        ∃ a, tree.selectedChild = some a ∧
          ((preorderRows sty tree width).map Prod.fst).count (RowTag.node a) = 1 ∧
          idx = (((preorderRows sty tree width).map Prod.fst).indexOf (RowTag.node a) : Int) ∧
          (∃ base, ((preorderRows sty tree width).map Prod.snd)[idx.toNat]?
            = some (base ++ sty.TreeSelectionArrow arrow)) ∧
          (sty = Stylesheet.plain → tree.namesClear = true →
            ∀ (j : Nat) (r : String),
              ((preorderRows sty tree width).map Prod.snd)[j]? = some r →
              hasSuffix r arrow = true → (j : Int) = idx)) ∧
      (tree.currentDirEmpty = true →
        ((preorderRows sty tree width).map Prod.fst).count RowTag.emptyDir = 1 ∧
        idx = (((preorderRows sty tree width).map Prod.fst).indexOf RowTag.emptyDir : Int)) := by
  refine ⟨_, renderTreeFull_eq sty tree width fuel hnil hd hfuel, ?_, ?_⟩
  · intro hin
    obtain ⟨hno, a, hsa, hmem⟩ := selected_facts tree hnil hd hin
    have htags : (preorderRows sty tree width).map Prod.fst
        = tree.Root.addrs.map RowTag.node := by
      rw [preorderRows_tags sty tree width hd, flatMap_tagsOf_of_noEmpty tree _ hno]
      rfl
    have hnd := nodup_map_node _ hd
    have hmemt : RowTag.node a ∈ tree.Root.addrs.map RowTag.node :=
      List.mem_map.mpr ⟨a, hmem, rfl⟩
    have hidx : ((tree.Root.nodes.flatMap (tagsOf tree)).foldl
        (trackStep tree.selectedChild) (-1, 0)).2
          = ((tree.Root.addrs.map RowTag.node).indexOf (RowTag.node a) : Int) := by
      rw [flatMap_tagsOf_of_noEmpty tree _ hno, hsa]
      have := track_node_tags a tree.Root.addrs (-1) 0 hd
      rw [Node.addrs] at this
      rw [this, indexOf_map_node]
      simp only [Node.addrs] at hmem
      simp only [hmem, if_true, Node.addrs]
      omega
    have hget : (tree.Root.addrs.map RowTag.node)[
        (tree.Root.addrs.map RowTag.node).indexOf (RowTag.node a)]? = some (RowTag.node a) :=
      List.getElem?_indexOf hmemt
    refine ⟨a, hsa, ?_, ?_, ?_, ?_⟩
    · rw [htags]
      exact List.count_eq_one_of_mem hnd hmemt
    · rw [htags]; exact hidx
    · rw [hidx, Int.toNat_ofNat]
      rw [← htags, List.getElem?_map] at hget
      cases hx : (preorderRows sty tree width)[
          (tree.Root.addrs.map RowTag.node).indexOf (RowTag.node a)]? with
      | none => rw [← htags] at hx; rw [hx] at hget; simp at hget
      | some x =>
        rw [← htags] at hx
        rw [hx] at hget
        simp only [Option.map_some', Option.some.injEq] at hget
        rcases preorderRows_shape sty tree width hd x (List.getElem?_mem hx)
          with h | ⟨a1, info, ch, ind, _, he, _⟩
        · rw [hget] at h; cases h
        · rw [he] at hget
          have ha : a1 = a := RowTag.node.inj hget
          subst ha
          obtain ⟨base, hb⟩ := rowText_selected sty tree width ind a1 info hsa
          refine ⟨base, ?_⟩
          rw [← htags, List.getElem?_map, hx, he]
          simp only [Option.map_some', hb]
    · intro hsty hnames j r hj hsuf
      subst hsty
      rw [hidx]
      rw [List.getElem?_map] at hj
      cases hx : (preorderRows Stylesheet.plain tree width)[j]? with
      | none => rw [hx] at hj; simp at hj
      | some x =>
        rw [hx] at hj
        simp only [Option.map_some', Option.some.injEq] at hj
        have hjt : ((preorderRows Stylesheet.plain tree width).map Prod.fst)[j]? = some x.1 := by
          rw [List.getElem?_map, hx]; rfl
        rw [htags] at hjt
        have hjlt : j < (tree.Root.addrs.map RowTag.node).length := by
          by_contra hge
          rw [List.getElem?_eq_none (by omega)] at hjt
          cases hjt
        rcases preorderRows_shape Stylesheet.plain tree width hd x (List.getElem?_mem hx)
          with h | ⟨b, info, ch, ind, hbm, he, hshape⟩
        · exfalso
          have hxm : x.1 ∈ tree.Root.addrs.map RowTag.node := List.getElem?_mem hjt
          rw [h] at hxm
          simp at hxm
        · by_cases hba : b = a
          · subst hba
            rw [he] at hjt
            have hje := List.getElem?_eq_some_iff.mp hjt
            obtain ⟨hlt, hje⟩ := hje
            have := List.indexOf_getElem hnd j hlt
            rw [hje] at this
            rw [this]
          · exfalso
            have hne : tree.selectedChild ≠ some b := by
              rw [hsa]; intro e; exact hba (Option.some.inj e).symm
            have hname : hasSuffix info.Name "<-" = false := by
              simp only [Tree.namesClear, List.all_eq_true, Bool.not_eq_true'] at hnames
              exact hnames _ hbm
            have := plain_row_no_arrow tree width ind b info hne hshape hname
            rw [he] at hj
            simp only at hj
            rw [hj] at this
            rw [this] at hsuf
            cases hsuf
  · intro hemp
    have hany : tree.Root.nodes.any (isEmptyCurrent tree) = true := hemp
    have hnone : tree.selectedChild = none := by
      rcases hsel with h | h
      · exact h
      · exfalso
        obtain ⟨hno, _⟩ := selected_facts tree hnil hd h
        rw [List.any_eq_true] at hany
        obtain ⟨m, hm, hp⟩ := hany
        rw [hno m hm] at hp
        cases hp
    have hcount : ((preorderRows sty tree width).map Prod.fst).count RowTag.emptyDir = 1 := by
      rw [preorderRows_tags sty tree width hd, count_emptyDir_tags,
        countP_isEmptyCurrent tree _ hd, hany]
      rfl
    refine ⟨hcount, ?_⟩
    rw [preorderRows_tags sty tree width hd] at hcount ⊢
    rw [hnone, track_single_placeholder _ _ _ hcount]
    omega

/-- Instance of C4, the example of the specification: root with `a.txt` and the
empty directory `b`, `a.txt` selected, gives the rows root, a.txt, b and
index 1. -/
theorem renderTreeFull_selection_row_witness :
    renderTreeFull Stylesheet.plain exampleTree 40 3
      = some (["root", "├─ a.txt <-", "└─ b"], 1) ∧
    ∃ idx : Int,
      renderTreeFull Stylesheet.plain exampleTree 40 3
        = some ((preorderRows Stylesheet.plain exampleTree 40).map Prod.snd, idx) ∧
      (exampleTree.selectedInCurrentDir = true →
        ∃ a, exampleTree.selectedChild = some a ∧
          ((preorderRows Stylesheet.plain exampleTree 40).map Prod.fst).count
            (RowTag.node a) = 1 ∧
          idx = (((preorderRows Stylesheet.plain exampleTree 40).map Prod.fst).indexOf
            (RowTag.node a) : Int) ∧
          (∃ base, ((preorderRows Stylesheet.plain exampleTree 40).map Prod.snd)[idx.toNat]?
            = some (base ++ Stylesheet.plain.TreeSelectionArrow arrow)) ∧
          (Stylesheet.plain = Stylesheet.plain → exampleTree.namesClear = true →
            ∀ (j : Nat) (r : String),
              ((preorderRows Stylesheet.plain exampleTree 40).map Prod.snd)[j]? = some r →
              hasSuffix r arrow = true → (j : Int) = idx)) ∧
      (exampleTree.currentDirEmpty = true →
        ((preorderRows Stylesheet.plain exampleTree 40).map Prod.fst).count
          RowTag.emptyDir = 1 ∧
        idx = (((preorderRows Stylesheet.plain exampleTree 40).map Prod.fst).indexOf
          RowTag.emptyDir : Int)) :=
  ⟨by decide,
   renderTreeFull_selection_row Stylesheet.plain exampleTree 40 3 (by decide) (by decide)
    (by decide) (Or.inr (by decide))⟩

/-- C4 as stated fails: with a file named `<-` next to the selected `a.txt`,
the returned index is 2, yet row 1 also ends with the arrow. -/
theorem renderTreeFull_arrow_row_not_unique :
    arrowNameTree.Root.noNil = true ∧ arrowNameTree.Root.addrs.Nodup ∧
    arrowNameTree.selectedInCurrentDir = true ∧
    renderTreeFull Stylesheet.plain arrowNameTree 40 3
      = some (["root", "├─ <-", "└─ a.txt <-"], 2) ∧
    ["root", "├─ <-", "└─ a.txt <-"][1]? = some "├─ <-" ∧
    hasSuffix "├─ <-" arrow = true ∧ ((1 : Nat) : Int) ≠ 2 := by
  refine ⟨by decide, by decide, by decide, by decide, by decide, by decide, by decide⟩

/-- C5: when `indent + runeCount(name) > width - 6` the displayed name is the
first `max(0, width - indent - 6)` code points of the name followed by `...`,
the slice never panics because the clip index is at most the name's length;
otherwise the name is displayed unchanged. -/
theorem truncateName_spec (name : String) (i : Nat) (w : Int) :
    ((name.length : Int) + i > w - 6 →
      truncateName name i w
        = some (String.mk (name.data.take (max 0 (w - i - 6)).toNat) ++ "...") ∧
      0 ≤ max 0 (w - i - 6) ∧ max 0 (w - (i : Int) - 6) ≤ (name.length : Int)) ∧
    (¬ ((name.length : Int) + i > w - 6) → truncateName name i w = some name) := by
  constructor
  · intro h
    have hle : max 0 (w - (i : Int) - 6) ≤ (name.length : Int) :=
      max_le (by omega) (by omega)
    refine ⟨?_, le_max_left _ _, hle⟩
    unfold truncateName
    simp only [if_pos h]
    rw [goSlice_eq_some name.data 0 _ (le_refl 0) (le_max_left _ _) hle]
    simp
  · intro h
    unfold truncateName
    simp only [if_neg h]

/-- The example of C5: a 50-character name at indent width 10 and pane width 30
is shown as its first 14 characters plus `...`. -/
theorem truncateName_example :
    truncateName "abcdefghijklmnopqrstuvwxyzabcdefghijklmnopqrstuvwx" 10 30
      = some "abcdefghijklmn..." ∧
    "abcdefghijklmnopqrstuvwxyzabcdefghijklmnopqrstuvwx".length = 50 := by
  refine ⟨by decide, by decide⟩

/-! ### `formatSize` -/

theorem formatSizeLoop_spec :
    ∀ (k : Nat) (s : ℚ) (i : Nat),
      ∃ j, j ≤ k ∧ formatSizeLoop 1024 k s i = (s / 1024 ^ j, i + j) ∧
        (∀ j1, j1 < j → ¬ (s / 1024 ^ j1 < 1024)) ∧ (j < k → s / 1024 ^ j < 1024) := by
  intro k
  induction k with
  | zero =>
    intro s i
    exact ⟨0, le_refl 0, by simp [formatSizeLoop], by simp, by simp⟩
  | succ k ih =>
    intro s i
    by_cases h : s ≥ 1024
    · obtain ⟨j, hj, hloop, hbefore, hstop⟩ := ih (s / 1024) (i + 1)
      refine ⟨j + 1, by omega, ?_, ?_, ?_⟩
      · rw [formatSizeLoop, if_pos h, hloop]
        congr 1
        · rw [pow_succ, div_div, mul_comm]
        · omega
      · intro j1 hj1
        cases j1 with
        | zero => simpa using h
        | succ j2 =>
          have := hbefore j2 (by omega)
          rwa [div_div, ← pow_succ'] at this
      · intro hlt
        have := hstop (by omega)
        rwa [div_div, ← pow_succ'] at this
    · refine ⟨0, by omega, ?_, by simp, ?_⟩
      · rw [formatSizeLoop, if_neg h]
        simp
      · intro _
        simpa using h

theorem digitChar_eq (d : Nat) (h : d < 10) : Nat.digitChar d = Char.ofNat (48 + d) := by
  interval_cases d <;> rfl

theorem digitsAux_eq (fuel n : Nat) (acc : List Char) :
    digitsAux fuel n acc = Nat.toDigitsCore 10 fuel n acc := by
  induction fuel generalizing n acc with
  | zero => rfl
  | succ fuel ih =>
    simp only [digitsAux, Nat.toDigitsCore, digitChar_eq _ (Nat.mod_lt n (by decide)), ih]

theorem decimal_eq_toString (n : Nat) : decimal n = toString n := by
  show decimal n = Nat.repr n
  unfold decimal Nat.repr Nat.toDigits
  rw [digitsAux_eq]
  rfl

theorem roundHalfEven_nearest (x : ℚ) (hx : 0 ≤ x) :
    ∃ r : Nat, (roundHalfEven x).toNat = r ∧ nearestEven r x := by
  have hfl : Rat.floor x = ⌊x⌋ := rfl
  have h0 : (0 : Int) ≤ ⌊x⌋ := Int.floor_nonneg.mpr hx
  have h1 : ((⌊x⌋ : Int) : ℚ) ≤ x := Int.floor_le x
  have h2 : x < ((⌊x⌋ : Int) : ℚ) + 1 := Int.lt_floor_add_one x
  refine ⟨(roundHalfEven x).toNat, rfl, ?_⟩
  unfold roundHalfEven nearestEven
  simp only [hfl]
  by_cases hlt : x - ((⌊x⌋ : Int) : ℚ) < 1 / 2
  · simp only [hlt, if_true]
    have hc : (((⌊x⌋ : Int).toNat : Nat) : ℚ) = ((⌊x⌋ : Int) : ℚ) := by
      have : (((⌊x⌋ : Int).toNat : Nat) : Int) = ⌊x⌋ := Int.toNat_of_nonneg h0
      exact_mod_cast this
    rw [hc]
    have habs : |((⌊x⌋ : Int) : ℚ) - x| = x - ((⌊x⌋ : Int) : ℚ) := by
      rw [abs_sub_comm, abs_of_nonneg (by linarith)]
    rw [habs]
    exact ⟨by linarith, fun h => absurd h (by linarith)⟩
  · simp only [hlt, if_false]
    by_cases hgt : x - ((⌊x⌋ : Int) : ℚ) > 1 / 2
    · simp only [hgt, if_true]
      have hc : (((⌊x⌋ + 1 : Int).toNat : Nat) : ℚ) = ((⌊x⌋ : Int) : ℚ) + 1 := by
        have : (((⌊x⌋ + 1 : Int).toNat : Nat) : Int) = ⌊x⌋ + 1 :=
          Int.toNat_of_nonneg (by omega)
        exact_mod_cast this
      rw [hc]
      have habs : |((⌊x⌋ : Int) : ℚ) + 1 - x| = ((⌊x⌋ : Int) : ℚ) + 1 - x :=
        abs_of_nonneg (by linarith)
      rw [habs]
      exact ⟨by linarith, fun h => absurd h (by linarith)⟩
    · simp only [hgt, if_false]
      have hd : x - ((⌊x⌋ : Int) : ℚ) = 1 / 2 := by
        have := not_lt.mp hlt
        have := not_lt.mp hgt
        linarith
      by_cases hev : (⌊x⌋ : Int) % 2 = 0
      · simp only [hev, if_true]
        have hc : (((⌊x⌋ : Int).toNat : Nat) : ℚ) = ((⌊x⌋ : Int) : ℚ) := by
          have : (((⌊x⌋ : Int).toNat : Nat) : Int) = ⌊x⌋ := Int.toNat_of_nonneg h0
          exact_mod_cast this
        rw [hc]
        have habs : |((⌊x⌋ : Int) : ℚ) - x| = x - ((⌊x⌋ : Int) : ℚ) := by
          rw [abs_sub_comm, abs_of_nonneg (by linarith)]
        rw [habs]
        exact ⟨by linarith, fun _ => by omega⟩
      · simp only [hev, if_false]
        have hc : (((⌊x⌋ + 1 : Int).toNat : Nat) : ℚ) = ((⌊x⌋ : Int) : ℚ) + 1 := by
          have : (((⌊x⌋ + 1 : Int).toNat : Nat) : Int) = ⌊x⌋ + 1 :=
            Int.toNat_of_nonneg (by omega)
          exact_mod_cast this
        rw [hc]
        have habs : |((⌊x⌋ : Int) : ℚ) + 1 - x| = ((⌊x⌋ : Int) : ℚ) + 1 - x :=
          abs_of_nonneg (by linarith)
        rw [habs]
        exact ⟨by linarith, fun _ => by omega⟩

theorem padLeft_two_digits : ∀ m : Nat, m < 100 →
    padLeft 2 (decimal m) = toString (m / 10) ++ toString (m % 10) := by
  decide

theorem toFloat64_nonneg (n : Nat) : 0 ≤ toFloat64 n := by
  unfold toFloat64
  split_ifs <;> exact Nat.cast_nonneg _

theorem toFloat64_small (n : Nat) (h : n < 2 ^ 53) : toFloat64 n = n := by
  unfold toFloat64
  rw [if_pos h]

theorem formatSize_of_loop (s v : ℚ) (i : Nat) (u : String)
    (hloop : formatSizeLoop 1024 6 s 0 = (v, i)) (hu : sizes[i]? = some u) :
    formatSize s 1024 = some (sprintfFixed (if i > 1 then 2 else 0) v ++ " " ++ u) := by
  have hlen : sizes.length - 1 = 6 := by decide
  unfold formatSize
  simp only [hlen, hloop, hu]

theorem sprintfFixed_zero (v : ℚ) (hv : 0 ≤ v) :
    ∃ r : Nat, nearestEven r v ∧ sprintfFixed 0 v = toString r := by
  obtain ⟨r, hr, hn⟩ := roundHalfEven_nearest v hv
  refine ⟨r, hn, ?_⟩
  unfold sprintfFixed
  simp only [pow_zero, mul_one, if_true, hr, decimal_eq_toString]

theorem sprintfFixed_two (v : ℚ) (hv : 0 ≤ v) :
    ∃ q : Nat, nearestEven q (v * 100) ∧
      sprintfFixed 2 v
        = toString (q / 100) ++ "." ++ toString (q / 10 % 10) ++ toString (q % 10) := by
  obtain ⟨q, hq, hn⟩ := roundHalfEven_nearest (v * 100) (by positivity)
  refine ⟨q, hn, ?_⟩
  have h100 : (10 : ℚ) ^ 2 = 100 := by norm_num
  have hn100 : (10 : Nat) ^ 2 = 100 := by norm_num
  have h1 : q % 100 / 10 = q / 10 % 10 := by omega
  have h2 : q % 100 % 10 = q % 10 := by omega
  unfold sprintfFixed
  simp only [h100, hn100, hq, OfNat.ofNat_ne_zero, if_false]
  rw [padLeft_two_digits (q % 100) (Nat.mod_lt q (by decide)), h1, h2, decimal_eq_toString]
  simp only [String.append_assoc]

/-- Above `2^53` the conversion gives a nearest multiple `m * 2^e` of the
spacing `2^e` of the binade of `n`, the one with the even significand at a
tie. -/
theorem toFloat64_nearest (n : Nat) (h : 2 ^ 53 ≤ n) :
    ∃ m e : Nat, 1 ≤ e ∧ 2 ^ (e + 52) ≤ n ∧ n < 2 ^ (e + 53) ∧
      2 ^ 52 ≤ m ∧ m ≤ 2 ^ 53 ∧
      toFloat64 n = ((m * 2 ^ e : Nat) : ℚ) ∧
      m * 2 ^ e ≤ n + 2 ^ (e - 1) ∧ n ≤ m * 2 ^ e + 2 ^ (e - 1) ∧
      ((m * 2 ^ e = n + 2 ^ (e - 1) ∨ n = m * 2 ^ e + 2 ^ (e - 1)) → m % 2 = 0) := by
  have hn0 : n ≠ 0 := by
    have : 0 < 2 ^ 53 := by norm_num
    omega
  have hL : 53 ≤ Nat.log2 n := (Nat.le_log2 hn0).2 h
  have hlo : 2 ^ Nat.log2 n ≤ n := Nat.log2_self_le hn0
  have hhi : n < 2 ^ (Nat.log2 n + 1) := Nat.lt_log2_self
  obtain ⟨e, he⟩ : ∃ e, e = Nat.log2 n - 52 := ⟨_, rfl⟩
  have he1 : 1 ≤ e := by omega
  have hLe : Nat.log2 n = e + 52 := by omega
  rw [hLe] at hlo hhi
  have hP : 2 ^ e = 2 * 2 ^ (e - 1) := by
    obtain ⟨k, rfl⟩ : ∃ k, e = k + 1 := ⟨e - 1, by omega⟩
    rw [Nat.add_sub_cancel, pow_succ]; ring
  have hHpos : 0 < 2 ^ (e - 1) := by positivity
  have hdm : 2 ^ e * (n / 2 ^ e) + n % 2 ^ e = n := Nat.div_add_mod n (2 ^ e)
  have hr : n % 2 ^ e < 2 ^ e := Nat.mod_lt _ (by positivity)
  have hqlo : 2 ^ 52 ≤ n / 2 ^ e := by
    rw [Nat.le_div_iff_mul_le (by positivity)]
    calc 2 ^ 52 * 2 ^ e = 2 ^ (e + 52) := by rw [← pow_add, Nat.add_comm]
      _ ≤ n := hlo
  have hqhi : n / 2 ^ e < 2 ^ 53 := by
    rw [Nat.div_lt_iff_lt_mul (by positivity)]
    calc n < 2 ^ (e + 53) := hhi
      _ = 2 ^ 53 * 2 ^ e := by rw [← pow_add, Nat.add_comm]
  have hX : (n / 2 ^ e + 1) * 2 ^ e = n / 2 ^ e * 2 ^ e + 2 ^ e := by ring
  have hc : 2 ^ e * (n / 2 ^ e) = n / 2 ^ e * 2 ^ e := Nat.mul_comm _ _
  have hnot : ¬ n < 2 ^ 53 := by omega
  by_cases hup : n % 2 ^ e > 2 ^ (e - 1) ∨ (n % 2 ^ e = 2 ^ (e - 1) ∧ n / 2 ^ e % 2 = 1)
  · refine ⟨n / 2 ^ e + 1, e, he1, hlo, hhi, by omega, by omega, ?_, ?_, ?_, ?_⟩
    · unfold toFloat64
      simp only [hnot, if_false, ← he, hup, if_true]
    · omega
    · omega
    · intro ht
      rcases hup with hup | hup <;> omega
  · refine ⟨n / 2 ^ e, e, he1, hlo, hhi, hqlo, by omega, ?_, ?_, ?_, ?_⟩
    · unfold toFloat64
      simp only [hnot, if_false, ← he, hup]
    · omega
    · have : ¬ (n % 2 ^ e > 2 ^ (e - 1)) := fun h => hup (Or.inl h)
      omega
    · intro ht
      have h1 : ¬ (n % 2 ^ e > 2 ^ (e - 1)) := fun h => hup (Or.inl h)
      have h2 : ¬ (n % 2 ^ e = 2 ^ (e - 1) ∧ n / 2 ^ e % 2 = 1) := fun h => hup (Or.inr h)
      have h3 : n % 2 ^ e = 2 ^ (e - 1) := by omega
      have h4 : ¬ (n / 2 ^ e % 2 = 1) := fun h => h2 ⟨h3, h⟩
      omega

/-- C6 (as amended): for every non-negative `int64` byte count `n`, with `v`
the value of `float64(n)` (equal to `n` below `2^53`, and from `2^53` on a
nearest multiple of the spacing `2^e` of the binade of `n`, the one with the
even significand at a tie), `formatSize(v, 1024)`
picks the least unit index `i` with `v / 1024^i < 1024`, capped at 6, so
`sizes[i]` is in range; the result is `v / 1024^i` rounded to the nearest
integer (ties to even) when `i <= 1`, and rounded to two decimals (ties to
even) and written with exactly two decimal digits when `i >= 2`, followed by a
space and the unit. `formatSize(0) = "0 B"`, `formatSize(1023) = "1023 B"`,
`formatSize(1024) = "1 KiB"`, `formatSize(1572864) = "1.50 MiB"`; further
instances show the zero padding (`1.01 MiB`), the ties (`2 KiB` for 2.5,
`1.12 MiB` for 1.125) and the conversion above `2^53`. -/
theorem formatSize_spec :
    (∀ n : Nat, n < 2 ^ 63 →
      (n < 2 ^ 53 → toFloat64 n = n) ∧
      (2 ^ 53 ≤ n → ∃ m e : Nat, 1 ≤ e ∧ 2 ^ (e + 52) ≤ n ∧ n < 2 ^ (e + 53) ∧
        2 ^ 52 ≤ m ∧ m ≤ 2 ^ 53 ∧
        toFloat64 n = ((m * 2 ^ e : Nat) : ℚ) ∧
        m * 2 ^ e ≤ n + 2 ^ (e - 1) ∧ n ≤ m * 2 ^ e + 2 ^ (e - 1) ∧
        ((m * 2 ^ e = n + 2 ^ (e - 1) ∨ n = m * 2 ^ e + 2 ^ (e - 1)) → m % 2 = 0)) ∧
      ∃ (i : Nat) (u : String),
        i ≤ 6 ∧ (∀ j, j < i → ¬ (toFloat64 n / 1024 ^ j < 1024)) ∧
        (i = 6 ∨ toFloat64 n / 1024 ^ i < 1024) ∧
        sizes[i]? = some u ∧
        ((i ≤ 1 ∧ ∃ r : Nat, nearestEven r (toFloat64 n / 1024 ^ i) ∧
            formatSize (toFloat64 n) 1024 = some (toString r ++ " " ++ u)) ∨
         (2 ≤ i ∧ ∃ q : Nat, nearestEven q (toFloat64 n / 1024 ^ i * 100) ∧
            formatSize (toFloat64 n) 1024
              = some (toString (q / 100) ++ "." ++ toString (q / 10 % 10)
                  ++ toString (q % 10) ++ " " ++ u)))) ∧
    formatSize (toFloat64 0) 1024 = some "0 B" ∧
    formatSize (toFloat64 1023) 1024 = some "1023 B" ∧
    formatSize (toFloat64 1024) 1024 = some "1 KiB" ∧
    formatSize (toFloat64 1572864) 1024 = some "1.50 MiB" ∧
    formatSize (toFloat64 1059062) 1024 = some "1.01 MiB" ∧
    formatSize (toFloat64 2560) 1024 = some "2 KiB" ∧
    formatSize (toFloat64 1179648) 1024 = some "1.12 MiB" ∧
    toFloat64 (2 ^ 60 - 1) = 2 ^ 60 ∧
    toFloat64 9024087753343631 = 9024087753343632 := by
  refine ⟨?_, ?_, ?_, ?_, ?_, ?_, ?_, ?_,
    by unfold toFloat64; norm_num [Nat.log2], by unfold toFloat64; norm_num [Nat.log2]⟩
  · intro n _
    refine ⟨toFloat64_small n, toFloat64_nearest n, ?_⟩
    · obtain ⟨j, hj, hloop, hbefore, hstop⟩ := formatSizeLoop_spec 6 (toFloat64 n) 0
      have hu : ∃ u, sizes[j]? = some u := by
        have : j < sizes.length := by
          have : sizes.length = 7 := by decide
          omega
        exact ⟨sizes[j], List.getElem?_eq_getElem this⟩
      obtain ⟨u, hu⟩ := hu
      rw [Nat.zero_add] at hloop
      have hv : 0 ≤ toFloat64 n / 1024 ^ j :=
        div_nonneg (toFloat64_nonneg n) (by positivity)
      have hfmt := formatSize_of_loop _ _ _ _ hloop hu
      refine ⟨j, u, hj, hbefore, ?_, hu, ?_⟩
      · by_cases h6 : j = 6
        · exact Or.inl h6
        · exact Or.inr (hstop (by omega))
      · by_cases h1 : j ≤ 1
        · left
          obtain ⟨r, hr, hs⟩ := sprintfFixed_zero _ hv
          have : ¬ (j > 1) := by omega
          rw [if_neg this, hs] at hfmt
          exact ⟨h1, r, hr, hfmt⟩
        · right
          obtain ⟨q, hq, hs⟩ := sprintfFixed_two _ hv
          have : j > 1 := by omega
          rw [if_pos this, hs] at hfmt
          exact ⟨by omega, q, hq, hfmt⟩
  all_goals (rw [toFloat64_small _ (by norm_num)]; with_unfolding_all decide)

/-- Instance of C6 at 1572864 bytes (1.5 MiB). -/
theorem formatSize_spec_witness :
    formatSize (toFloat64 1572864) 1024 = some "1.50 MiB" ∧
    toFloat64 1572864 = (1572864 : Nat) ∧
    ∃ (i : Nat) (u : String),
      i ≤ 6 ∧ (∀ j, j < i → ¬ (toFloat64 1572864 / 1024 ^ j < 1024)) ∧
      (i = 6 ∨ toFloat64 1572864 / 1024 ^ i < 1024) ∧
      sizes[i]? = some u ∧
      ((i ≤ 1 ∧ ∃ r : Nat, nearestEven r (toFloat64 1572864 / 1024 ^ i) ∧
          formatSize (toFloat64 1572864) 1024 = some (toString r ++ " " ++ u)) ∨
       (2 ≤ i ∧ ∃ q : Nat, nearestEven q (toFloat64 1572864 / 1024 ^ i * 100) ∧
          formatSize (toFloat64 1572864) 1024
            = some (toString (q / 100) ++ "." ++ toString (q / 10 % 10)
                ++ toString (q % 10) ++ " " ++ u))) :=
  ⟨formatSize_spec.2.2.2.2.1, (formatSize_spec.1 1572864 (by decide)).1 (by decide),
    (formatSize_spec.1 1572864 (by decide)).2.2⟩

/-- C6 as stated fails: for `n = 2^60 - 1` the least `i` with
`n / 1024^i < 1024` is 5 (unit PiB), but `float64(n)` is `2^60`, so the code
divides six times and prints `1.00 EiB`; for `n = 9024087753343631` the
conversion rounds up to an even significand and the code prints `8.02 PiB`
where `n / 1024^5` printed with two decimals is `8.01`. -/
theorem formatSize_large_count_rounds_first :
    2 ^ 60 - 1 < 2 ^ 63 ∧
    toFloat64 (2 ^ 60 - 1) = 2 ^ 60 ∧
    formatSize (toFloat64 (2 ^ 60 - 1)) 1024 = some "1.00 EiB" ∧
    (((2 ^ 60 - 1 : Nat) : ℚ) / 1024 ^ 5 < 1024) ∧
    ¬ (((2 ^ 60 - 1 : Nat) : ℚ) / 1024 ^ 4 < 1024) ∧
    sizes[5]? = some "PiB" ∧
    toFloat64 9024087753343631 = 9024087753343632 ∧
    formatSize (toFloat64 9024087753343631) 1024 = some "8.02 PiB" ∧
    sprintfFixed 2 (((9024087753343631 : Nat) : ℚ) / 1024 ^ 5) = "8.01" := by
  have hbig : toFloat64 (2 ^ 60 - 1) = 2 ^ 60 := by
    unfold toFloat64
    norm_num [Nat.log2]
  have hodd : toFloat64 9024087753343631 = 9024087753343632 := by
    unfold toFloat64
    norm_num [Nat.log2]
  have hl1 : formatSizeLoop 1024 6 (2 ^ 60) 0 = (1, 6) := by
    norm_num [formatSizeLoop]
  have hl2 : formatSizeLoop 1024 6 9024087753343632 0
      = (9024087753343632 / 1024 ^ 5, 5) := by
    norm_num [formatSizeLoop]
  have hs1 : sprintfFixed 2 1 = "1.00" := by with_unfolding_all decide
  have hs2 : sprintfFixed 2 (9024087753343632 / 1024 ^ 5) = "8.02" := by
    with_unfolding_all decide
  refine ⟨by norm_num, hbig, ?_, by norm_num, by norm_num, by decide, hodd, ?_, ?_⟩
  · rw [hbig, formatSize_of_loop _ _ _ "EiB" hl1 (by decide)]
    rw [if_pos (by decide), hs1]
    decide
  · rw [hodd, formatSize_of_loop _ _ _ "PiB" hl2 (by decide)]
    rw [if_pos (by decide), hs2]
    decide
  · have : (((9024087753343631 : Nat) : ℚ) / 1024 ^ 5) = 9024087753343631 / 1024 ^ 5 := by
      norm_num
    rw [this]
    with_unfolding_all decide

/-! ### `GetGitStatus` -/

theorem mkStatus_cons (c0 c1 sep : Nat) (path : GoString) :
    mkStatus (c0 :: c1 :: sep :: path) =
      some { Path := path,
             Staged := containsAny [c0, c1] (ascii "M A D R C U"),
             Modified := contains [c0, c1] (ascii "M"),
             Untracked := hasPrefix (c0 :: c1 :: sep :: path) (ascii "??") } := by
  have h1 : goSlice (c0 :: c1 :: sep :: path) 3 ((c0 :: c1 :: sep :: path).length : Int)
      = some path := by
    unfold goSlice
    rw [if_pos ⟨by omega, by simp only [List.length_cons]; omega, le_refl _⟩]
    simp
    omega
  have h2 : goSlice (c0 :: c1 :: sep :: path) 0 2 = some [c0, c1] := by
    unfold goSlice
    rw [if_pos ⟨by omega, by omega, by simp only [List.length_cons]; omega⟩]
    simp
  unfold mkStatus
  rw [h1]
  simp only [h2]

/-- C7 (evaluation of the code): for every entry `c0 c1 sep path` the stored
struct has `Path = entry[3:]`, `Modified` exactly when the code contains `M`
and `Untracked` exactly when the code is `??`, but `Staged` is also true when
the code contains a space: the entry ` T link` is classified staged although
its code holds none of the letters M, A, D, R, C, U. -/
theorem mkStatus_staged_counts_space :
    (∀ (c0 c1 sep : Nat) (path : GoString),
      mkStatus (c0 :: c1 :: sep :: path) =
        some { Path := path,
               Staged := decide (c0 ∈ [77, 65, 68, 82, 67, 85, 32]
                 ∨ c1 ∈ [77, 65, 68, 82, 67, 85, 32]),
               Modified := decide (c0 = 77 ∨ c1 = 77),
               Untracked := decide (c0 = 63 ∧ c1 = 63) }) ∧
    mkStatus (ascii " T link") = some ⟨ascii "link", true, false, false⟩ ∧
    containsAny (ascii " T") (ascii "MADRCU") = false := by
  refine ⟨?_, by decide, by decide⟩
  intro c0 c1 sep path
  rw [mkStatus_cons]
  have ha : ascii "M A D R C U" = [77, 32, 65, 32, 68, 32, 82, 32, 67, 32, 85] := by decide
  have hm : ascii "M" = [77] := by decide
  have hq : ascii "??" = [63, 63] := by decide
  simp only [ha, hm, hq, containsAny, contains, hasPrefix]
  have hs : ([c0, c1].any fun b => [77, 32, 65, 32, 68, 32, 82, 32, 67, 32, 85].contains b)
      = decide (c0 ∈ [77, 65, 68, 82, 67, 85, 32] ∨ c1 ∈ [77, 65, 68, 82, 67, 85, 32]) := by
    rw [Bool.eq_iff_iff]
    simp only [List.any_cons, List.any_nil, Bool.or_false, Bool.or_eq_true,
      List.contains_iff_exists_mem_beq, decide_eq_true_eq, List.mem_cons, List.mem_singleton,
      List.not_mem_nil, or_false, beq_iff_eq, exists_eq_or_imp, exists_eq_left, exists_false]
    tauto
  have hmod : ([c0, c1].tails.any fun t => [77].isPrefixOf t) = decide (c0 = 77 ∨ c1 = 77) := by
    rw [Bool.eq_iff_iff]
    simp only [List.tails, List.any_cons, List.any_nil, List.isPrefixOf, Bool.and_true,
      Bool.or_false, Bool.or_eq_true, beq_iff_eq, decide_eq_true_eq]
    constructor
    · rintro (h | h)
      · exact Or.inl h.symm
      · exact Or.inr h.symm
    · rintro (h | h)
      · exact Or.inl h.symm
      · exact Or.inr h.symm
  have hun : [63, 63].isPrefixOf (c0 :: c1 :: sep :: path) = decide (c0 = 63 ∧ c1 = 63) := by
    rw [Bool.eq_iff_iff]
    simp only [List.isPrefixOf, Bool.and_true, Bool.and_eq_true, beq_iff_eq,
      decide_eq_true_eq]
    constructor
    · rintro ⟨h1, h2⟩; exact ⟨h1.symm, h2.symm⟩
    · rintro ⟨h1, h2⟩; exact ⟨h1.symm, h2.symm⟩
  rw [hs, hmod, hun]

/-- C8 (evaluation of the code): entries with the codes `M ` and `??` are
classified as the claim says, but an entry with code ` M` (changed in the
working tree only) is stored with `Staged = true` where the claim says not
staged: `Staged` is computed from both characters of the code. For every entry
`Modified` comes with `Staged`, so the badge of a modified entry is always the
staged one. -/
theorem mkStatus_worktree_M_is_staged :
    mkStatus (ascii " M a.txt") = some ⟨ascii "a.txt", true, true, false⟩ ∧
    (mkStatus (ascii " M a.txt")).map GitStatus.Staged ≠ some false ∧
    (mkStatus (ascii " M a.txt")).map treeBadge = some (ascii " [S]") ∧
    (∀ (sep : Nat) (path : GoString),
      mkStatus (ascii "M " ++ sep :: path) = some ⟨path, true, true, false⟩ ∧
      mkStatus (ascii "??" ++ sep :: path) = some ⟨path, false, false, true⟩ ∧
      mkStatus (ascii " M" ++ sep :: path) = some ⟨path, true, true, false⟩) ∧
    (∀ (c0 c1 sep : Nat) (path : GoString),
      ∃ st, mkStatus (c0 :: c1 :: sep :: path) = some st ∧
        (st.Modified = false ∨ st.Staged = true)) := by
  refine ⟨by decide, by decide, by decide, ?_, ?_⟩
  · intro sep path
    have h1 : ascii "M " = [77, 32] := by decide
    have h2 : ascii "??" = [63, 63] := by decide
    have h3 : ascii " M" = [32, 77] := by decide
    rw [h1, h2, h3]
    simp only [List.cons_append, List.nil_append, mkStatus_cons]
    refine ⟨?_, ?_, ?_⟩ <;> rfl
  · intro c0 c1 sep path
    refine ⟨_, mkStatus_cons c0 c1 sep path, ?_⟩
    have ha : ascii "M A D R C U" = [77, 32, 65, 32, 68, 32, 82, 32, 67, 32, 85] := by decide
    have hm : ascii "M" = [77] := by decide
    simp only [ha, hm, containsAny, contains]
    by_cases h0 : c0 = 77
    · right; subst h0; simp
    · by_cases h1 : c1 = 77
      · right; subst h1; simp
      · left
        rw [Bool.eq_false_iff]
        intro h
        simp only [List.tails, List.any_cons, List.any_nil, List.isPrefixOf, Bool.and_true,
          Bool.or_false, Bool.or_eq_true, beq_iff_eq] at h
        rcases h with h | h
        · exact h0 h.symm
        · exact h1 h.symm

/-! ### The status refresh of `Render` -/

theorem minutes_le_one (d : Int) (h : d ≤ 60 * 10 ^ 9) : ¬ (minutes d > 1) := by
  unfold minutes
  rw [gt_iff_lt, not_lt, div_le_one (by norm_num)]
  exact_mod_cast h

/-- On a renderer made by `NewRenderer` the refresh condition is false whenever
the two clock reads of line 59 are at most a minute apart. -/
theorem renderStatusUpdate_fresh (sty : Stylesheet) (pad : Int) (err : String)
    (calls : List Int) (f : Frame) (h : f.sinceNow ≤ 60 * 10 ^ 9) :
    renderStatusUpdate ⟨NewRenderer sty pad, err, calls⟩ f
      = some ⟨NewRenderer sty pad, err, calls⟩ := by
  unfold renderStatusUpdate
  have h1 : ¬ ((NewRenderer sty pad).gitStatus = none ∨ minutes f.sinceNow > 1) := by
    rintro (h1 | h1)
    · simp [NewRenderer] at h1
    · exact minutes_le_one _ h h1
  simp only [h1, if_false, ite_self]

/-- C9 (evaluation of the code): on the renderer returned by `NewRenderer` the
first `Render` call with a 10 x 10 window does not invoke the status fetch: the
cache is a non-nil empty map and `time.Since(time.Now())` is not above one
minute, also when it is exactly one minute; the cache stays empty. -/
theorem render_first_frame_skips_fetch :
    (renderStatusUpdate ⟨NewRenderer Stylesheet.plain 1, "", []⟩
        ⟨10, 10, 0, 0, .output (ascii " M a.txt" ++ [0])⟩).map RenderState.calls
      = some [] ∧
    (renderStatusUpdate ⟨NewRenderer Stylesheet.plain 1, "", []⟩
        ⟨10, 10, 0, 0, .output (ascii " M a.txt" ++ [0])⟩).map (fun st => st.r.gitStatus)
      = some (some []) ∧
    (renderStatusUpdate ⟨NewRenderer Stylesheet.plain 1, "", []⟩
        ⟨24, 80, 0, 60 * 10 ^ 9, .output (ascii " M a.txt" ++ [0])⟩).map RenderState.calls
      = some [] ∧
    GetGitStatus (.output (ascii " M a.txt" ++ [0]))
      = some (some [(ascii "a.txt", ⟨ascii "a.txt", true, true, false⟩)], none) := by
  refine ⟨?_, ?_, ?_, by decide⟩
  · rw [renderStatusUpdate_fresh _ _ _ _ _ (by norm_num)]; rfl
  · rw [renderStatusUpdate_fresh _ _ _ _ _ (by norm_num)]; rfl
  · rw [renderStatusUpdate_fresh _ _ _ _ _ (by norm_num)]; rfl

/-- C10 (evaluation of the code): with a nil cache the status provider is
invoked on every frame. A zero-value renderer in a directory that is not a
repository fetches at two calls one second apart; a renderer from `NewRenderer`
whose first call is held up for 61 seconds between the two clock reads fetches
then, stores the nil map, and fetches again at the next two frames, 16 ms
apart. -/
theorem render_nil_cache_fetches_every_frame :
    (renderFrames
        ⟨{ Style := Stylesheet.plain, EdgePadding := 1, offsetMem := 0, gitStatus := none },
          "", []⟩
        [⟨24, 80, 0, 0, .exitError 128 "exit status 128"⟩,
         ⟨24, 80, 10 ^ 9, 0, .exitError 128 "exit status 128"⟩]).map RenderState.calls
      = some [10 ^ 9, 0] ∧
    (renderFrames ⟨NewRenderer Stylesheet.plain 1, "", []⟩
        [⟨24, 80, 0, 61 * 10 ^ 9, .exitError 128 "exit status 128"⟩,
         ⟨24, 80, 61 * 10 ^ 9 + 16 * 10 ^ 6, 0, .exitError 128 "exit status 128"⟩,
         ⟨24, 80, 61 * 10 ^ 9 + 32 * 10 ^ 6, 0, .exitError 128 "exit status 128"⟩]).map
          RenderState.calls
      = some [61 * 10 ^ 9 + 32 * 10 ^ 6, 61 * 10 ^ 9 + 16 * 10 ^ 6, 0] := by
  constructor
  · simp [renderFrames, renderStatusUpdate, GetGitStatus, minWidth, minHeight]
  · have h : (1 : ℚ) < minutes 61000000000 := by
      unfold minutes
      norm_num
    simp [renderFrames, renderStatusUpdate, GetGitStatus, minWidth, minHeight, NewRenderer, h]

/-! ### Further properties of `cropTree` -/

theorem cropOffset_le_len (n c h p o : Int) (hc0 : 0 ≤ c) (hcn : c < n)
    (hp : 0 ≤ p) : cropOffset n c h p o ≤ n := by
  unfold cropOffset
  simp only
  split_ifs <;> omega

theorem cropTree_eq (r : Scroll) (lines : List String) (c h : Int)
    (hc0 : 0 ≤ c) (hcn : c < (lines.length : Int)) (hh : 0 ≤ h)
    (hp : 0 ≤ r.EdgePadding) (ho : 0 ≤ r.offsetMem) :
    cropTree r lines c h =
      some ((lines.drop (cropOffset lines.length c h r.EdgePadding r.offsetMem).toNat).take
          (cropLimit lines.length h (cropOffset lines.length c h r.EdgePadding r.offsetMem)
            - cropOffset lines.length c h r.EdgePadding r.offsetMem).toNat,
        ⟨r.EdgePadding, cropOffset lines.length c h r.EdgePadding r.offsetMem⟩) := by
  have h0 := cropOffset_nonneg lines.length c h r.EdgePadding r.offsetMem ho
  have h1 := cropOffset_le_len lines.length c h r.EdgePadding r.offsetMem hc0 hcn hp
  have hs := goSlice_eq_some lines
    (cropOffset lines.length c h r.EdgePadding r.offsetMem)
    (cropLimit lines.length h (cropOffset lines.length c h r.EdgePadding r.offsetMem))
    h0 (by unfold cropLimit; omega) (by unfold cropLimit; omega)
  unfold cropTree
  simp only [hs]

theorem cropOffset_idem (n c h p o : Int) (hph : 2 * p < h) :
    cropOffset n c h p (cropOffset n c h p o) = cropOffset n c h p o := by
  unfold cropOffset
  simp only
  split_ifs <;> omega

theorem cropOffset_eq_policy (n c h p o : Int) (hph : 2 * p < h) (ho : 0 ≤ o) :
    cropOffset n c h p o = policyOffset n c h p o := by
  unfold cropOffset policyOffset
  simp only
  split_ifs <;> omega

/-- C11: under the preconditions of the scroller, a second call of `cropTree`
with the same lines, selection and height, starting from the offset stored by
the first call, stores the same offset and returns the same window. -/
theorem cropTree_idempotent (r : Scroll) (lines : List String)
    (currentLine height : Int) (hne : lines ≠ [])
    (hc0 : 0 ≤ currentLine) (hcn : currentLine < (lines.length : Int))
    (hp : 0 ≤ r.EdgePadding) (hph : 2 * r.EdgePadding < height)
    (ho : 0 ≤ r.offsetMem) :
    ∃ (w : List String) (r1 : Scroll),
      cropTree r lines currentLine height = some (w, r1) ∧
      cropTree r1 lines currentLine height = some (w, r1) := by
  have hh : 0 ≤ height := by omega
  have h0 := cropOffset_nonneg lines.length currentLine height r.EdgePadding r.offsetMem ho
  refine ⟨_, _, cropTree_eq r lines currentLine height hc0 hcn hh hp ho, ?_⟩
  rw [cropTree_eq ⟨r.EdgePadding, cropOffset lines.length currentLine height r.EdgePadding
    r.offsetMem⟩ lines currentLine height hc0 hcn hh hp h0]
  simp only [cropOffset_idem _ _ _ _ _ hph]

/-- Instance of C11: five rows, height 3, padding 1, selection on row 3. -/
theorem cropTree_idempotent_witness :
    ∃ (w : List String) (r1 : Scroll),
      cropTree ⟨1, 0⟩ ["r", "a", "b", "c", "d"] 3 3 = some (w, r1) ∧
      cropTree r1 ["r", "a", "b", "c", "d"] 3 3 = some (w, r1) :=
  cropTree_idempotent ⟨1, 0⟩ ["r", "a", "b", "c", "d"] 3 3
    (by decide) (by decide) (by decide) (by decide) (by decide) (by decide)

/-- C16: under the preconditions of the scroller, the offset that the two
consecutive `if` statements of `cropTree` compute and store is the offset of
the three-way policy of the specification (advance, else retreat, else keep). -/
theorem cropTree_offset_is_policy (r : Scroll) (lines : List String)
    (currentLine height : Int) (hne : lines ≠ [])
    (hc0 : 0 ≤ currentLine) (hcn : currentLine < (lines.length : Int))
    (hp : 0 ≤ r.EdgePadding) (hph : 2 * r.EdgePadding < height)
    (ho : 0 ≤ r.offsetMem) :
    cropOffset lines.length currentLine height r.EdgePadding r.offsetMem
      = policyOffset lines.length currentLine height r.EdgePadding r.offsetMem ∧
    ∃ (w : List String) (r1 : Scroll),
      cropTree r lines currentLine height = some (w, r1) ∧
      r1.offsetMem
        = policyOffset lines.length currentLine height r.EdgePadding r.offsetMem := by
  have hh : 0 ≤ height := by omega
  refine ⟨cropOffset_eq_policy _ _ _ _ _ hph ho, _, _,
    cropTree_eq r lines currentLine height hc0 hcn hh hp ho, ?_⟩
  exact cropOffset_eq_policy _ _ _ _ _ hph ho

/-- Instance of C16: five rows, height 3, padding 1, selection on row 3. -/
theorem cropTree_offset_is_policy_witness :
    cropOffset (["r", "a", "b", "c", "d"].length : Int) 3 3 1 0
      = policyOffset (["r", "a", "b", "c", "d"].length : Int) 3 3 1 0 ∧
    ∃ (w : List String) (r1 : Scroll),
      cropTree ⟨1, 0⟩ ["r", "a", "b", "c", "d"] 3 3 = some (w, r1) ∧
      r1.offsetMem = policyOffset (["r", "a", "b", "c", "d"].length : Int) 3 3 1 0 :=
  cropTree_offset_is_policy ⟨1, 0⟩ ["r", "a", "b", "c", "d"] 3 3
    (by decide) (by decide) (by decide) (by decide) (by decide) (by decide)

/-- C18: for a non-empty list, a selection inside it, any `height >= 0`, any
`EdgePadding >= 0` and any remembered offset `>= 0`, the bounds of
`lines[offset:limit]` satisfy `0 <= offset <= limit <= len(lines)` with
`limit = min(offset + height, len(lines))`; the slice does not panic, returns
at most `height` rows, and the stored offset is `>= 0`. -/
theorem cropTree_slice_in_range (r : Scroll) (lines : List String)
    (currentLine height : Int) (hne : lines ≠ [])
    (hc0 : 0 ≤ currentLine) (hcn : currentLine < (lines.length : Int))
    (hh : 0 ≤ height) (hp : 0 ≤ r.EdgePadding) (ho : 0 ≤ r.offsetMem) :
    ∃ (w : List String) (r1 : Scroll),
      cropTree r lines currentLine height = some (w, r1) ∧
      r1.offsetMem = cropOffset lines.length currentLine height r.EdgePadding r.offsetMem ∧
      0 ≤ r1.offsetMem ∧
      r1.offsetMem ≤ min (height + r1.offsetMem) (lines.length : Int) ∧
      min (height + r1.offsetMem) (lines.length : Int) ≤ (lines.length : Int) ∧
      goSlice lines r1.offsetMem (min (height + r1.offsetMem) (lines.length : Int)) = some w ∧
      (w.length : Int) ≤ height := by
  have h0 := cropOffset_nonneg lines.length currentLine height r.EdgePadding r.offsetMem ho
  have h1 := cropOffset_le_len lines.length currentLine height r.EdgePadding r.offsetMem
    hc0 hcn hp
  have hs := goSlice_eq_some lines
    (cropOffset lines.length currentLine height r.EdgePadding r.offsetMem)
    (min (height + cropOffset lines.length currentLine height r.EdgePadding r.offsetMem)
      (lines.length : Int))
    h0 (by omega) (by omega)
  refine ⟨_, _, cropTree_eq r lines currentLine height hc0 hcn hh hp ho, rfl, h0,
    by simp only; omega, by omega, ?_, ?_⟩
  · simp only [hs, cropLimit]
  · simp only [List.length_take, List.length_drop, cropLimit]
    omega

/-- Instance of C18: three rows, height 2, padding 5, remembered offset 40. -/
theorem cropTree_slice_in_range_witness :
    ∃ (w : List String) (r1 : Scroll),
      cropTree ⟨5, 40⟩ ["r", "a", "b"] 1 2 = some (w, r1) ∧
      r1.offsetMem = cropOffset (["r", "a", "b"].length : Int) 1 2 5 40 ∧
      0 ≤ r1.offsetMem ∧
      r1.offsetMem ≤ min (2 + r1.offsetMem) (["r", "a", "b"].length : Int) ∧
      min (2 + r1.offsetMem) (["r", "a", "b"].length : Int)
        ≤ (["r", "a", "b"].length : Int) ∧
      goSlice ["r", "a", "b"] r1.offsetMem
        (min (2 + r1.offsetMem) (["r", "a", "b"].length : Int)) = some w ∧
      (w.length : Int) ≤ 2 :=
  cropTree_slice_in_range ⟨5, 40⟩ ["r", "a", "b"] 1 2
    (by decide) (by decide) (by decide) (by decide) (by decide) (by decide)

theorem cropOffset_step_mono (n k h p o : Int) (hph : 2 * p < h)
    (ho : 0 ≤ o) (hon : o ≤ max 0 (n - h)) (hok : o ≤ max 0 (k - 1 - p)) :
    o ≤ cropOffset n k h p o ∧ 0 ≤ cropOffset n k h p o ∧
    cropOffset n k h p o ≤ max 0 (n - h) ∧ cropOffset n k h p o ≤ max 0 (k - p) := by
  unfold cropOffset
  simp only
  split_ifs <;> omega

theorem cropRun_mono (lines : List String) (h p : Int) (hp : 0 ≤ p) (hph : 2 * p < h) :
    ∀ (m k : Nat) (o : Int), k + m ≤ lines.length → 0 ≤ o →
      o ≤ max 0 ((lines.length : Int) - h) → o ≤ max 0 ((k : Int) - 1 - p) →
      ∃ offs, cropRun lines h ((List.range' k m).map Int.ofNat) ⟨p, o⟩ = some offs ∧
        offs.length = m ∧ List.Chain (· ≤ ·) o offs := by
  intro m
  induction m with
  | zero =>
    intro k o _ _ _ _
    exact ⟨[], by simp [cropRun], rfl, List.Chain.nil⟩
  | succ m ih =>
    intro k o hk ho hon hok
    obtain ⟨h1, h2, h3, h4⟩ := cropOffset_step_mono lines.length k h p o hph ho hon hok
    obtain ⟨offs, hrun, hlen, hchain⟩ := ih (k + 1) (cropOffset lines.length k h p o)
      (by omega) h2 h3 (by push_cast; simpa using h4)
    refine ⟨cropOffset lines.length k h p o :: offs, ?_, by simp [hlen],
      List.Chain.cons h1 hchain⟩
    rw [List.range'_succ, List.map_cons, cropRun]
    simp only [Int.ofNat_eq_coe]
    rw [cropTree_eq ⟨p, o⟩ lines k h (by omega) (by omega) (by omega) hp ho]
    simp only [hrun]

/-- C12: scrolling down from the top, `currentLine = 0, 1, ..., len(lines) - 1`
in turn on the same lines, each call starting from the offset stored by the
call before and the first from `offsetMem = 0`, every call returns a window and
the stored offsets never decrease. -/
theorem cropTree_scroll_down_monotone (lines : List String) (height edgePadding : Int)
    (hne : lines ≠ []) (hp : 0 ≤ edgePadding) (hph : 2 * edgePadding < height) :
    ∃ offs : List Int,
      cropRun lines height ((List.range lines.length).map Int.ofNat) ⟨edgePadding, 0⟩
        = some offs ∧
      offs.length = lines.length ∧ offs.Pairwise (· ≤ ·) := by
  obtain ⟨offs, hrun, hlen, hchain⟩ := cropRun_mono lines height edgePadding hp hph
    lines.length 0 0 (by omega) (le_refl 0) (le_max_left _ _) (le_max_left _ _)
  refine ⟨offs, ?_, hlen, ?_⟩
  · rw [List.range_eq_range']
    exact hrun
  · exact (List.pairwise_cons.mp (List.Chain.pairwise hchain)).2

/-- Instance of C12: five rows, height 3, padding 1. -/
theorem cropTree_scroll_down_monotone_witness :
    cropRun ["r", "a", "b", "c", "d"] 3 [0, 1, 2, 3, 4] ⟨1, 0⟩ = some [0, 0, 1, 2, 2] ∧
    ∃ offs : List Int,
      cropRun ["r", "a", "b", "c", "d"] 3
        ((List.range ["r", "a", "b", "c", "d"].length).map Int.ofNat) ⟨1, 0⟩ = some offs ∧
      offs.length = ["r", "a", "b", "c", "d"].length ∧ offs.Pairwise (· ≤ ·) :=
  ⟨by decide,
   cropTree_scroll_down_monotone ["r", "a", "b", "c", "d"] 3 1
    (by decide) (by decide) (by decide)⟩

/-! ### The index without a selection, and the indentation -/

theorem track_unselected (sel : Ptr) :
    ∀ (as : List Nat) (k cur : Int), (∀ a ∈ as, sel ≠ some a) →
      (as.map RowTag.node).foldl (trackStep sel) (k, cur) = (k + as.length, cur) := by
  intro as
  induction as with
  | nil => intro k cur _; simp
  | cons b bs ih =>
    intro k cur h
    have hb : sel ≠ some b := h b (List.mem_cons_self _ _)
    rw [List.map_cons, List.foldl_cons, trackStep, if_neg hb,
      ih _ _ (fun a ha => h a (List.mem_cons_of_mem _ ha))]
    simp
    omega

/-- C13 as stated fails: for a tree that is just its root, with no selection
and no placeholder, the returned index is 0, not -1. -/
theorem renderTreeFull_no_selection_returns_zero :
    rootOnlyTree.selectedChild = none ∧ rootOnlyTree.currentDirEmpty = false ∧
    renderTreeFull Stylesheet.plain rootOnlyTree 40 1 = some (["root"], 0) ∧
    (0 : Int) ≠ -1 := by
  refine ⟨rfl, by decide, by decide, by decide⟩

/-- C13 (as amended): when no visited node is the selected child and no
placeholder row is produced, `renderTreeFull` returns its rows together with
the index 0, the initial value of `currentLine`. -/
theorem renderTreeFull_no_selection (sty : Stylesheet) (tree : Tree) (width : Int)
    (fuel : Nat) (hnil : tree.Root.noNil = true) (hfuel : tree.Root.size ≤ fuel)
    (hsel : ∀ a ∈ tree.Root.addrs, tree.selectedChild ≠ some a)
    (hemp : tree.currentDirEmpty = false) :
    ∃ rows : List String, renderTreeFull sty tree width fuel = some (rows, 0) := by
  have hno : ∀ m ∈ tree.Root.nodes, isEmptyCurrent tree m = false := by
    have h : tree.Root.nodes.any (isEmptyCurrent tree) = false := hemp
    intro m hm
    cases hq : isEmptyCurrent tree m with
    | false => rfl
    | true =>
      have : tree.Root.nodes.any (isEmptyCurrent tree) = true :=
        List.any_eq_true.mpr ⟨m, hm, hq⟩
      rw [h] at this
      cases this
  refine ⟨(listNode sty tree width tree.Root.ptr tree.Root "" false).map Prod.snd, ?_⟩
  unfold renderTreeFull
  rw [renderLoop_eq sty tree width fuel _ (by
      intro el hel
      simp only [List.mem_singleton] at hel
      subst hel
      exact hnil) (by simpa [stackSize] using hfuel)]
  have := track_unselected tree.selectedChild tree.Root.addrs (-1) 0 hsel
  rw [Node.addrs] at this
  simp only [stackRows, List.append_nil, List.nil_append, listNode_tags,
    flatMap_tagsOf_of_noEmpty tree _ hno, this]

/-- Instance of C13 (amended): the root-only tree. -/
theorem renderTreeFull_no_selection_witness :
    ∃ rows : List String, renderTreeFull Stylesheet.plain rootOnlyTree 40 1 = some (rows, 0) :=
  renderTreeFull_no_selection Stylesheet.plain rootOnlyTree 40 1 (by decide) (by decide)
    (by decide) (by decide)

theorem ancestorIndent_append (anc : List Bool) (l : Bool) :
    ancestorIndent (anc ++ [l]) = ancestorIndent anc ++ continuationGlyph l := by
  induction anc with
  | nil => simp [ancestorIndent]
  | cons b bs ih => simp [ancestorIndent, ih, String.append_assoc]

theorem ancestorIndent_length (anc : List Bool) :
    (ancestorIndent anc).length = 3 * anc.length := by
  induction anc with
  | nil => rfl
  | cons b bs ih =>
    have hb : (continuationGlyph b).length = 3 := by cases b <;> decide
    rw [ancestorIndent, String.length_append, ih, hb, List.length_cons]
    omega

theorem chainIndent_length (anc : List Bool) (l : Bool) :
    (chainIndent anc l).length = 3 * (anc.length + 1) := by
  have hb : (branchGlyph l).length = 3 := by cases l <;> decide
  rw [chainIndent, String.length_append, ancestorIndent_length, hb]
  omega

theorem listNode_eq_chainNode (sty : Stylesheet) (tree : Tree) (width : Int) :
    ∀ (n : Node) (anc : List Bool) (l : Bool),
      listNode sty tree width none n (ancestorIndent anc) l
        = chainNode sty tree width n anc l := by
  intro n
  induction n using Node.induct with
  | hnull => intro anc l; simp [listNode, chainNode]
  | hleaf a i =>
    intro anc l
    cases l <;> simp [listNode, chainNode, chainIndent, branchGlyph]
  | hbranch a i cs ih =>
    intro anc l
    have hlist : ∀ (anc1 : List Bool),
        listChildren sty tree width none cs (ancestorIndent anc1)
          = chainChildren sty tree width cs anc1 := by
      intro anc1
      induction cs with
      | nil => simp [listChildren, chainChildren]
      | cons c cs ihc =>
        simp only [listChildren, chainChildren]
        rw [ih c (List.mem_cons_self _ _),
          ihc (fun c hc => ih c (List.mem_cons_of_mem _ hc))]
    have hci : (ancestorIndent anc ++ if l = true then indentEmpty else indentParent)
        = ancestorIndent (anc ++ [l]) := by
      rw [ancestorIndent_append]; rfl
    simp only [listNode, chainNode, reduceCtorEq, if_false, hci, hlist]
    cases l <;> simp [chainIndent, branchGlyph]

theorem preorderRows_eq_chainRows (sty : Stylesheet) (tree : Tree) (width : Int) :
    preorderRows sty tree width = chainRows sty tree width := by
  unfold preorderRows chainRows
  cases tree.Root with
  | null => rfl
  | mk a i ch =>
    cases ch with
    | none => rfl
    | some cs =>
      have hlist : listChildren sty tree width none cs ""
          = chainChildren sty tree width cs [] := by
        have h0 : ancestorIndent [] = "" := rfl
        rw [← h0]
        clear h0
        induction cs with
        | nil => simp [listChildren, chainChildren]
        | cons c cs ihc =>
          simp only [listChildren, chainChildren]
          rw [listNode_eq_chainNode, ihc]
      simp only [hlist]

/-- C17: for a tree without nil children and with distinct pointers the rows
that `renderTreeFull` returns are those of the listing by ancestor chains: the
root's row has the empty indent, and the row of a node at depth `d >= 1` has
as indent the continuation glyphs of its ancestors `a_1 .. a_(d-1)` (blank
under a last child, bar otherwise) followed by its own branch glyph (corner
for a last child, tee otherwise); that indent is `3*d` code points wide. -/
theorem renderTreeFull_indentation (sty : Stylesheet) (tree : Tree) (width : Int)
    (fuel : Nat) (hnil : tree.Root.noNil = true) (hd : tree.Root.addrs.Nodup)
    (hfuel : tree.Root.size ≤ fuel) :
    (∃ idx : Int, renderTreeFull sty tree width fuel
      = some ((chainRows sty tree width).map Prod.snd, idx)) ∧
    (∀ (anc : List Bool) (l : Bool),
      chainIndent anc l = ancestorIndent anc ++ (if l then "└─ " else "├─ ") ∧
      ancestorIndent [] = "" ∧
      ancestorIndent (l :: anc) = (if l then "   " else "│  ") ++ ancestorIndent anc ∧
      (chainIndent anc l).length = 3 * (anc.length + 1)) := by
  constructor
  · have h := renderTreeFull_eq sty tree width fuel hnil hd hfuel
    rw [preorderRows_eq_chainRows] at h
    exact ⟨_, h⟩
  · intro anc l
    refine ⟨?_, rfl, ?_, chainIndent_length anc l⟩
    · cases l <;> rfl
    · cases l <;> rfl

/-- Instance of C17: root with `a.txt` and the empty directory `b`. -/
theorem renderTreeFull_indentation_witness :
    (chainRows Stylesheet.plain exampleTree 40).map Prod.snd
      = ["root", "├─ a.txt <-", "└─ b"] ∧
    ((∃ idx : Int, renderTreeFull Stylesheet.plain exampleTree 40 3
      = some ((chainRows Stylesheet.plain exampleTree 40).map Prod.snd, idx)) ∧
    (∀ (anc : List Bool) (l : Bool),
      chainIndent anc l = ancestorIndent anc ++ (if l then "└─ " else "├─ ") ∧
      ancestorIndent [] = "" ∧
      ancestorIndent (l :: anc) = (if l then "   " else "│  ") ++ ancestorIndent anc ∧
      (chainIndent anc l).length = 3 * (anc.length + 1))) :=
  ⟨by decide,
   renderTreeFull_indentation Stylesheet.plain exampleTree 40 3 (by decide) (by decide)
    (by decide)⟩

/-! ### `renderSelectedFileContent` -/

theorem utf8Valid_ascii_cons (b : Nat) (rest : GoString) (hb : b < 128) :
    utf8Valid (b :: rest) = utf8Valid rest := by
  conv_lhs => unfold utf8Valid
  simp only [if_pos hb]

theorem utf8Valid_replicate_ascii (k : Nat) (t : GoString) :
    utf8Valid (List.replicate k 97 ++ t) = utf8Valid t := by
  induction k with
  | zero => rfl
  | succ k ih =>
    rw [List.replicate_succ, List.cons_append, utf8Valid_ascii_cons _ _ (by decide), ih]

/-- C14: when the bytes read are valid UTF-8, for every height (also zero or
negative) the preview is the first `min(max(height, 0), lineCount)` lines of
the content split on newlines, in order; the slice bound lies within
`[0, lineCount]`, so the slice expression does not panic. -/
theorem renderSelectedFileContent_text (sty : PreviewStyle) (previewBuff content : GoString)
    (n height width : Int) (hread : goSlice previewBuff 0 n = some content)
    (hvalid : utf8Valid content = true) :
    0 ≤ min (max height 0) ((splitByte 10 content).length : Int) ∧
    min (max height 0) ((splitByte 10 content).length : Int)
      ≤ ((splitByte 10 content).length : Int) ∧
    renderSelectedFileContent sty (.ok previewBuff n) height width
      = some (sty.ContentPreviewMaxWidth (width - 1)
          (joinNewline ((splitByte 10 content).take
            (min (max height 0) ((splitByte 10 content).length : Int)).toNat))) := by
  have h0 : 0 ≤ min (max height 0) ((splitByte 10 content).length : Int) :=
    le_min (le_max_right _ _) (Int.ofNat_nonneg _)
  have h1 : min (max height 0) ((splitByte 10 content).length : Int)
      ≤ ((splitByte 10 content).length : Int) := min_le_right _ _
  refine ⟨h0, h1, ?_⟩
  unfold renderSelectedFileContent
  simp only [hread, hvalid, Bool.not_true, Bool.false_eq_true, if_false]
  rw [goSlice_eq_some _ 0 _ (le_refl 0) h0 h1]
  simp

/-- Instance of C14: the three lines `a`, `b`, `c` (bytes 97, 98, 99 separated by
the newline byte 10) with height 2 give the preview `a`, `b`. -/
theorem renderSelectedFileContent_text_witness :
    renderSelectedFileContent PreviewStyle.plain (.ok [97, 10, 98, 10, 99] 5) 2 40
      = some [97, 10, 98] ∧
    (0 ≤ min (max (2 : Int) 0) ((splitByte 10 [97, 10, 98, 10, 99]).length : Int) ∧
    min (max (2 : Int) 0) ((splitByte 10 [97, 10, 98, 10, 99]).length : Int)
      ≤ ((splitByte 10 [97, 10, 98, 10, 99]).length : Int) ∧
    renderSelectedFileContent PreviewStyle.plain (.ok [97, 10, 98, 10, 99] 5) 2 40
      = some (PreviewStyle.plain.ContentPreviewMaxWidth (40 - 1)
          (joinNewline ((splitByte 10 [97, 10, 98, 10, 99]).take
            (min (max (2 : Int) 0)
              ((splitByte 10 [97, 10, 98, 10, 99]).length : Int)).toNat)))) :=
  ⟨by decide,
   renderSelectedFileContent_text PreviewStyle.plain [97, 10, 98, 10, 99] [97, 10, 98, 10, 99]
    5 2 40 (by decide) (by decide)⟩

theorem renderSelectedFileContent_cut (sty : PreviewStyle) (k : Nat)
    (previewBuff : GoString) (height width : Int) :
    renderSelectedFileContent sty
        (ReadSelectedChildContent (List.replicate k 97 ++ [195, 169]) previewBuff (k + 1))
        height width
      = some (sty.ContentPreviewMaxWidth (width - 1) (ascii binaryContentPlaceholder)) := by
  have hlen : (List.replicate k 97 ++ [195, 169]).length = k + 2 := by simp
  have htake : (List.replicate k 97 ++ [195, 169]).take (k + 1)
      = List.replicate k 97 ++ [195] := by
    rw [List.take_append_eq_append_take]
    simp
  have hn : min (((List.replicate k 97 ++ [195, 169] : GoString).length : Int)) (k + 1)
      = ((k + 1 : Nat) : Int) := by
    rw [hlen]; push_cast; omega
  have htoNat : ((k : Int) + 1).toNat = k + 1 := by omega
  unfold ReadSelectedChildContent renderSelectedFileContent
  simp only [hn, htoNat, htake]
  have hslice : goSlice (List.replicate k 97 ++ [195] ++
      List.drop (min (List.replicate k 97 ++ [195, 169]).length (k + 1)) previewBuff)
      0 ((k + 1 : Nat) : Int) = some (List.replicate k 97 ++ [195]) := by
    rw [goSlice_eq_some _ 0 _ (le_refl 0) (Int.ofNat_nonneg _) (by
      simp only [List.length_append, List.length_replicate, List.length_singleton]
      push_cast; omega)]
    simp only [Int.toNat_zero, List.drop_zero, sub_zero, Int.toNat_ofNat]
    rw [List.take_append_eq_append_take]
    simp
  rw [hslice]
  have hv : utf8Valid (List.replicate k 97 ++ [195]) = false := by
    rw [utf8Valid_replicate_ascii]; decide
  simp only [hv, Bool.not_false, if_true, joinNewline, List.intercalate, List.intersperse,
    List.flatten, List.append_nil]

/-- C20 (evaluation of the code): a file of 9999 letters `a` followed by `é`
(bytes 195, 169) is valid UTF-8 and 10001 bytes long; the read stops after
10000 bytes, in the middle of `é`, so the buffer is not valid UTF-8 and the
preview is the binary placeholder, whatever the height, width and style. -/
theorem renderSelectedFileContent_long_text_shown_as_binary :
    utf8Valid (List.replicate 9999 97 ++ [195, 169]) = true ∧
    (List.replicate 9999 97 ++ [195, 169] : GoString).length = 10001 ∧
    ∀ (sty : PreviewStyle) (previewBuff : GoString) (height width : Int),
      renderSelectedFileContent sty
          (ReadSelectedChildContent (List.replicate 9999 97 ++ [195, 169]) previewBuff
            previewBytesLimit) height width
        = some (sty.ContentPreviewMaxWidth (width - 1) (ascii binaryContentPlaceholder)) := by
  refine ⟨?_, by rw [List.length_append, List.length_replicate]; rfl, ?_⟩
  · rw [utf8Valid_replicate_ascii]; decide
  · intro sty previewBuff height width
    have h : previewBytesLimit = ((9999 : Nat) : Int) + 1 := by decide
    rw [h]
    exact renderSelectedFileContent_cut sty 9999 previewBuff height width

/-! ### `renderHeading` -/

theorem formatSize_isSome (s : ℚ) : ∃ out, formatSize s 1024 = some out := by
  obtain ⟨j, hj, hloop, _, _⟩ := formatSizeLoop_spec 6 s 0
  have hlen : sizes.length - 1 = 6 := by decide
  have hlt : j < sizes.length := by
    have : sizes.length = 7 := by decide
    omega
  unfold formatSize
  simp only [hlen, hloop, Nat.zero_add, List.getElem?_eq_getElem hlt]
  exact ⟨_, rfl⟩

theorem spaces_length (k : Int) : ((spaces k).length : Int) = max k 0 := by
  unfold spaces
  simp only [String.length, List.length_replicate]
  omega

/-- C15 as stated fails: with nothing selected in `/tmp` and width 10 there is
no room (`10 - 10 - 22 < 0`), yet the first line of the header ends with the
hint and is 32 code points wide. -/
theorem renderHeading_hint_without_room :
    renderHeading HeaderStyle.plain none idleState 10
      = some (["> /tmp/...Press ? to toggle help", "-- │ -- │ 0 B", ": ", ""], 4) ∧
    (rawPath none idleState).length = 10 ∧ helpPreview.length = 22 ∧
    ¬ ((10 : Int) - 10 - 22 ≥ 0) ∧
    hasSuffix "> /tmp/...Press ? to toggle help" helpPreview = true ∧
    "> /tmp/...Press ? to toggle help".length = 32 := by
  refine ⟨by decide, by decide, by decide, by decide, by decide, by decide⟩

/-- C15 (as amended): for every state and width the first of the four header
lines is the styled path, then `max(width - pathWidth - hintWidth, 0)` spaces,
then the styled hint, which is always there; unstyled it is
`max(width, pathWidth + hintWidth)` code points wide, so it is `width` wide
when `width - pathWidth - hintWidth >= 0` and wider otherwise. -/
theorem renderHeading_first_line (sty : HeaderStyle) (gitStatus : Option StatusMap)
    (s : HeadingState) (width : Int) :
    (∃ rest : List String,
      renderHeading sty gitStatus s width
        = some ((sty.SelectedPath (rawPath gitStatus s) ++
            spaces (max (width - ((rawPath gitStatus s).length : Int)
              - (helpPreview.length : Int)) 0) ++
            sty.HelpMsg helpPreview) :: rest, 4) ∧ rest.length = 3) ∧
    (((rawPath gitStatus s ++
        spaces (max (width - ((rawPath gitStatus s).length : Int)
          - (helpPreview.length : Int)) 0) ++ helpPreview).length : Int)
      = max width (((rawPath gitStatus s).length : Int) + (helpPreview.length : Int))) ∧
    (width - ((rawPath gitStatus s).length : Int) - (helpPreview.length : Int) ≥ 0 ↔
      ((rawPath gitStatus s ++
        spaces (max (width - ((rawPath gitStatus s).length : Int)
          - (helpPreview.length : Int)) 0) ++ helpPreview).length : Int) ≤ width) := by
  have hlen : ((rawPath gitStatus s ++
        spaces (max (width - ((rawPath gitStatus s).length : Int)
          - (helpPreview.length : Int)) 0) ++ helpPreview).length : Int)
      = max width (((rawPath gitStatus s).length : Int) + (helpPreview.length : Int)) := by
    rw [String.length_append, String.length_append]
    push_cast
    rw [spaces_length]
    have h22 : helpPreview.length = 22 := by decide
    rw [h22]
    omega
  refine ⟨?_, hlen, ?_⟩
  · unfold renderHeading
    cases hsel : s.selected with
    | none => exact ⟨_, rfl, rfl⟩
    | some sel =>
      obtain ⟨out, hout⟩ := formatSize_isSome (toFloat64 sel.Size)
      simp only [hout]
      exact ⟨_, rfl, rfl⟩
  · rw [hlen]
    have h22 : helpPreview.length = 22 := by decide
    rw [h22]
    omega

theorem annotateLine_eq_filter (renderGit : GoString → GoString) (line : GoString)
    (entries : List (GoString × GitStatus)) :
    annotateLine renderGit line entries =
      match (entries.filter fun e => contains line e.1).head? with
      | none => line
      | some e => line ++ renderGit (treeBadge e.2) := by
  induction entries with
  | nil => rfl
  | cons e rest ih =>
    obtain ⟨path, status⟩ := e
    by_cases h : contains line path = true
    · simp [annotateLine, h]
    · simp only [annotateLine, h, if_false, Bool.false_eq_true]
      rw [ih, List.filter_cons_of_neg (by simpa using h)]

/-- When at most one cached path is a substring of the line, the annotated
line is the same for every enumeration order of the map. -/
theorem annotateLine_perm_of_unique (renderGit : GoString → GoString) (line : GoString)
    (o1 o2 : List (GoString × GitStatus)) (hperm : List.Perm o1 o2)
    (huniq : (o1.filter fun e => contains line e.1).length ≤ 1) :
    annotateLine renderGit line o1 = annotateLine renderGit line o2 := by
  have hf := List.Perm.filter (fun e => contains line e.1) hperm
  rw [annotateLine_eq_filter, annotateLine_eq_filter]
  cases h1 : (o1.filter fun e => contains line e.1) with
  | nil =>
    rw [h1] at hf
    rw [List.nil_perm.mp hf]
  | cons e rest =>
    rw [h1] at huniq hf
    have hrest : rest = [] := by
      cases rest with
      | nil => rfl
      | cons x xs => simp at huniq
    subst hrest
    rw [List.singleton_perm.mp hf]

/-- C19 (evaluation of the code): the cache holds the entries that `git status`
gives for an untracked `README` and a changed `README.md`; both paths are
substrings of the row of `README.md`, so the badge depends on the order in
which the map is enumerated: `[U]` when `README` comes first, `[S]` when
`README.md` comes first. -/
theorem annotateLine_depends_on_map_order :
    GetGitStatus (.output (ascii "?? README" ++ [0] ++ ascii " M README.md" ++ [0]))
      = some (some [(ascii "README.md", ⟨ascii "README.md", true, true, false⟩),
                    (ascii "README", ⟨ascii "README", false, false, true⟩)], none) ∧
    List.Perm
      [(ascii "README.md", (⟨ascii "README.md", true, true, false⟩ : GitStatus)),
       (ascii "README", ⟨ascii "README", false, false, true⟩)]
      [(ascii "README", ⟨ascii "README", false, false, true⟩),
       (ascii "README.md", ⟨ascii "README.md", true, true, false⟩)] ∧
    annotateLine id (utf8Encode "└─ README.md")
      [(ascii "README.md", ⟨ascii "README.md", true, true, false⟩),
       (ascii "README", ⟨ascii "README", false, false, true⟩)]
      = utf8Encode "└─ README.md [S]" ∧
    annotateLine id (utf8Encode "└─ README.md")
      [(ascii "README", ⟨ascii "README", false, false, true⟩),
       (ascii "README.md", ⟨ascii "README.md", true, true, false⟩)]
      = utf8Encode "└─ README.md [U]" ∧
    utf8Encode "└─ README.md [S]" ≠ utf8Encode "└─ README.md [U]" := by
  refine ⟨by decide, List.Perm.swap _ _ _, by decide, by decide, by decide⟩

end Ftree
